import Mathlib

/-!
# Verification of the REBAR gradient-estimator implementation (`rebar_tf.py`)

This file gives a shallow embedding, over the real numbers, of the numeric
kernel, the Bernoulli likelihood model, the reparameterization sampler, the
gradient-estimator assembly and the training orchestration of `rebar_tf.py`,
and proves (or refutes) the frozen specification claims about them.

Conventions:
* machine floats are modelled by `ℝ`; TensorFlow's reverse-mode
  differentiation (`tf.gradients`) is modelled by a small symbolic-AD
  expression language (`Exp`, `gradE`) that is proved correct against
  Mathlib's `deriv`/`HasDerivAt`;
* the element-wise TensorFlow ops are modelled per coordinate; vectors
  appear as `List`s where the batch/coordinate structure matters;
* Python-level control flow that can raise is modelled in `Except`.
-/

noncomputable section

open Real Set

/-! ## Numeric stability kernel (src lines 12-33) -/

/-- `tf.clip_by_value(x, lo, hi)`: clamp `x` into `[lo, hi]`. -/
def clip_by_value (x lo hi : ℝ) : ℝ := min (max x lo) hi

/-- The clipping constant `eps = 1e-8` used by `safe_log_prob` / `safe_clip`. -/
def eps : ℝ := 1e-8

/-- `safe_log_prob(x) = tf.log(tf.clip_by_value(x, eps, 1.0))` (src lines 12-13). -/
def safe_log_prob (x : ℝ) : ℝ := Real.log (clip_by_value x eps 1)

/-- `safe_clip(x) = tf.clip_by_value(x, eps, 1.0)` (src lines 15-16). -/
def safe_clip (x : ℝ) : ℝ := clip_by_value x eps 1

/-- `tf.sigmoid(x) = 1 / (1 + exp(-x))`. -/
def sigmoid (x : ℝ) : ℝ := 1 / (1 + Real.exp (-x))

/-- The numerically stable `softplus` of src lines 23-33:
`m + log(exp(-m) + exp(x - m))` with `m = max(0, x)`. -/
def softplus (x : ℝ) : ℝ :=
  max 0 x + Real.log (Real.exp (-(max 0 x)) + Real.exp (x - max 0 x))

/-! ## Bernoulli likelihood model (src lines 36-43), scalar (per-coordinate) form -/

/-- `bernoulli_loglikelihood(b, log_alpha)` (src lines 36-37). -/
def bernoulli_loglikelihood (b log_alpha : ℝ) : ℝ :=
  b * (-softplus (-log_alpha)) + (1 - b) * (-log_alpha - softplus (-log_alpha))

/-- `bernoulli_loglikelihood_derivitive(b, log_alpha)` (src lines 40-43), the
analytic formula only; the shape assertion is modelled separately on tensors. -/
def bernoulli_loglikelihood_derivitive (b log_alpha : ℝ) : ℝ :=
  b * sigmoid (-log_alpha) - (1 - b) * (1 - sigmoid (-log_alpha))

/-! ## Tensor-level likelihood derivative with the shape assertion (src lines 40-43)

`gs` returns the static shape; `assert gs(b) == gs(log_alpha)` raises
`AssertionError` on mismatch, before any arithmetic happens. -/

/-- A tensor: a static shape together with flat element data. -/
structure TensorR where
  shape : List ℕ
  data : List ℝ

/-- `gs(x) = x.get_shape().as_list()` (src lines 19-20). -/
def gs (t : TensorR) : List ℕ := t.shape

/-- `bernoulli_loglikelihood_derivitive` at the tensor level: the
`assert gs(b) == gs(log_alpha)` raises `AssertionError` exactly when the
static shapes differ; otherwise the element-wise analytic formula is returned. -/
def bernoulli_loglikelihood_derivitive_t (b log_alpha : TensorR) : Except String TensorR :=
  if gs b = gs log_alpha then
    Except.ok ⟨gs b, List.zipWith bernoulli_loglikelihood_derivitive b.data log_alpha.data⟩
  else
    Except.error "AssertionError"

/-! ## Reparameterization sampler (`_create_reparam_variables`, src lines 109-126),
scalar (per-coordinate) form. `u` and `w` stand for one coordinate of the
uniform draws `u` and `proto_v`. -/

/-- `z = log_alpha + safe_log_prob(u) - safe_log_prob(1 - u)` (src line 114). -/
def z_sample (log_alpha u : ℝ) : ℝ :=
  log_alpha + safe_log_prob u - safe_log_prob (1 - u)

/-- `b = tf.to_float(tf.stop_gradient(z > 0))` (src line 116). -/
def b_sample (log_alpha u : ℝ) : ℝ :=
  if 0 < z_sample log_alpha u then 1 else 0

/-- `u_prime = tf.nn.sigmoid(-log_alpha)` (src line 118). -/
def u_prime (log_alpha : ℝ) : ℝ := sigmoid (-log_alpha)

/-- The conditional noise `v` of src lines 119-122 for a *given* hard sample
`b`: `v = b*(w*(1-u_prime) + u_prime) + (1-b)*(w*u_prime)`. -/
def v_cond (log_alpha b w : ℝ) : ℝ :=
  b * (w * (1 - u_prime log_alpha) + u_prime log_alpha) + (1 - b) * (w * u_prime log_alpha)

/-- `v` as actually sampled (src line 122), with `b` drawn from `u`. -/
def v_sample (log_alpha u w : ℝ) : ℝ :=
  v_cond log_alpha (b_sample log_alpha u) w

/-- `z_tilde = log_alpha + safe_log_prob(v) - safe_log_prob(1 - v)` for given `b`
(src line 123). -/
def z_tilde_cond (log_alpha b w : ℝ) : ℝ :=
  log_alpha + safe_log_prob (v_cond log_alpha b w) - safe_log_prob (1 - v_cond log_alpha b w)

/-- `z_tilde` as actually sampled (src line 123). -/
def z_tilde_sample (log_alpha u w : ℝ) : ℝ :=
  z_tilde_cond log_alpha (b_sample log_alpha u) w

/-! ## Relaxed loss evaluations and the REBAR estimator
(`_create_loss_evaluations` src lines 128-142, `_create_gradvars` src lines
144-168), scalar configuration `dim = 1`, `batch_size = 1`, `n_samples = 1`,
as mathematical functions of the parameters and the two uniform draws.

`tf.gradients` is modelled by Mathlib's `deriv` of the function obtained by
varying `log_alpha` while holding the stop-gradiented hard sample `b` and the
noise draws fixed, exactly as the TensorFlow graph does. -/

/-- The relaxed input `sig(x / temperature + log_alpha)` (src lines 134-135). -/
def sig_relax (temperature log_alpha x : ℝ) : ℝ :=
  sigmoid (x / temperature + log_alpha)

/-- `f_z` as a function of `log_alpha` along the differentiation path
(the noise `u` is fixed; `b` does not occur). -/
def f_z_path (f : ℝ → ℝ) (temperature u t : ℝ) : ℝ :=
  f (sig_relax temperature t (z_sample t u))

/-- `f_z_tilde` as a function of `log_alpha` along the differentiation path:
the hard sample `b` is frozen by `tf.stop_gradient`, while `u_prime` and the
truncated noise `v` follow `log_alpha`. -/
def f_z_tilde_path (f : ℝ → ℝ) (temperature b w t : ℝ) : ℝ :=
  f (sig_relax temperature t (z_tilde_cond t b w))

/-- `term2 = tf.gradients(tf.reduce_mean(f_z - f_z_tilde), log_alpha)` (src
lines 163-166) in the scalar configuration (the mean of one element). -/
def term2_fun (f : ℝ → ℝ) (temperature log_alpha u w : ℝ) : ℝ :=
  deriv (fun t => f_z_path f temperature u t -
                  f_z_tilde_path f temperature (b_sample log_alpha u) w t) log_alpha

/-- The REBAR estimator `rebar = (f_b - eta*f_z_tilde)*d_log_p + eta*term2`
(src lines 161-168) at one draw `(u, w)`. -/
def rebar_fun (f : ℝ → ℝ) (temperature eta log_alpha u w : ℝ) : ℝ :=
  (f (b_sample log_alpha u) -
      eta * f (sig_relax temperature log_alpha
                  (z_tilde_cond log_alpha (b_sample log_alpha u) w))) *
    bernoulli_loglikelihood_derivitive (b_sample log_alpha u) log_alpha +
  eta * term2_fun f temperature log_alpha u w

/-- The expectation of the estimator over the two uniform draws
`u ~ U(0,1)`, `proto_v ~ U(0,1)`. -/
def rebar_expectation (f : ℝ → ℝ) (temperature eta log_alpha : ℝ) : ℝ :=
  ∫ u in Ioo (0:ℝ) 1, ∫ w in Ioo (0:ℝ) 1, rebar_fun f temperature eta log_alpha u w

/-- The exact expected loss `E[loss(b)]` under `b ~ Bernoulli(sigmoid(log_alpha))`. -/
def true_expected_loss (f : ℝ → ℝ) (log_alpha : ℝ) : ℝ :=
  sigmoid log_alpha * f 1 + (1 - sigmoid log_alpha) * f 0

/-- The true gradient `∂/∂log_alpha E[loss(b)]`. -/
def true_grad (f : ℝ → ℝ) (log_alpha : ℝ) : ℝ :=
  deriv (true_expected_loss f) log_alpha

/-! The closed-form path derivatives of the relaxed loss evaluations with
respect to `log_alpha` (`b` frozen, noise frozen), used to express the value
of `term2`.  `fd` denotes the derivative of the loss `f`. -/

/-- `∂/∂t v_cond t b w`: the truncated noise follows `log_alpha` through
`u_prime` only. -/
def v_cond_dt (t b w : ℝ) : ℝ :=
  -((b * (1 - w) + (1 - b) * w) * (u_prime t * (1 - u_prime t)))

/-- Derivative along a path of `x ↦ log (clip_by_value x eps 1)` at value `x`
with velocity `dx`: the clip freezes the path below `eps` (all arguments
arising here satisfy `x ≤ 1`).  Valid off the measure-zero kink `x = eps`. -/
def dlogclip (x dx : ℝ) : ℝ := if eps < x then dx / x else 0

/-- `∂/∂t z_tilde_cond t b w` (off the clip kinks). -/
def z_tilde_cond_dt (t b w : ℝ) : ℝ :=
  1 + dlogclip (v_cond t b w) (v_cond_dt t b w)
    - dlogclip (1 - v_cond t b w) (-v_cond_dt t b w)

/-- `∂/∂t f(sig(z_tilde(t,b,w)/temperature + t))` (off the clip kinks). -/
def f_z_tilde_path_dt (fd : ℝ → ℝ) (temperature b w t : ℝ) : ℝ :=
  fd (sig_relax temperature t (z_tilde_cond t b w)) *
    (sig_relax temperature t (z_tilde_cond t b w) *
      (1 - sig_relax temperature t (z_tilde_cond t b w))) *
    (z_tilde_cond_dt t b w / temperature + 1)

/-- `∂/∂t f(sig(z(t,u)/temperature + t))`: the unconditional noise is
additive, so the inner derivative is `1/temperature + 1` everywhere. -/
def f_z_path_dt (fd : ℝ → ℝ) (temperature u t : ℝ) : ℝ :=
  fd (sig_relax temperature t (z_sample t u)) *
    (sig_relax temperature t (z_sample t u) *
      (1 - sig_relax temperature t (z_sample t u))) *
    (1 / temperature + 1)

/-! ## A symbolic computation graph with reverse-mode differentiation

`tf.gradients` builds, by reverse-mode traversal, a new graph node computing
the derivative; `_create_gradvars` then differentiates *that* node again for
the variance objective.  `Exp` models graph nodes; `gradE` models
`tf.gradients` (one output coordinate at a time); `evalE` is the semantics.
`Exp.prim F a` is an external differentiable op (e.g. the user loss) whose
`n`-th derivative is `F n`. -/

inductive Exp : Type where
  | const : ℝ → Exp
  | var : ℕ → Exp
  | add : Exp → Exp → Exp
  | sub : Exp → Exp → Exp
  | neg : Exp → Exp
  | mul : Exp → Exp → Exp
  | sigmoid : Exp → Exp
  | square : Exp → Exp
  | prim : (ℕ → ℝ → ℝ) → Exp → Exp

instance : Inhabited Exp := ⟨Exp.const 0⟩

/-- Evaluation of a graph node under an environment assigning reals to
variable indices. -/
def evalE (env : ℕ → ℝ) : Exp → ℝ
  | .const c => c
  | .var j => env j
  | .add a b => evalE env a + evalE env b
  | .sub a b => evalE env a - evalE env b
  | .neg a => -evalE env a
  | .mul a b => evalE env a * evalE env b
  | .sigmoid a => sigmoid (evalE env a)
  | .square a => evalE env a ^ 2
  | .prim F a => F 0 (evalE env a)

/-- Symbolic reverse-mode differentiation with respect to variable `i`,
modelling `tf.gradients(e, var i)`.  The result is itself an `Exp`, so it can
be differentiated again (the second-order graph of `_create_gradvars`). -/
def gradE : Exp → ℕ → Exp
  | .const _, _ => .const 0
  | .var j, i => .const (if j = i then 1 else 0)
  | .add a b, i => .add (gradE a i) (gradE b i)
  | .sub a b, i => .sub (gradE a i) (gradE b i)
  | .neg a, i => .neg (gradE a i)
  | .mul a b, i => .add (.mul (gradE a i) b) (.mul a (gradE b i))
  | .sigmoid a, i => .mul (.mul (.sigmoid a) (.sub (.const 1) (.sigmoid a))) (gradE a i)
  | .square a, i => .mul (.mul (.const 2) a) (gradE a i)
  | .prim F a, i => .mul (.prim (fun n => F (n + 1)) a) (gradE a i)

/-- Well-formedness of the external ops in a graph: each `prim F _` must
declare correct derivatives of all orders (`F (n+1)` is the derivative of
`F n`).  All built-in ops are smooth. -/
def SmoothE : Exp → Prop
  | .const _ => True
  | .var _ => True
  | .add a b => SmoothE a ∧ SmoothE b
  | .sub a b => SmoothE a ∧ SmoothE b
  | .neg a => SmoothE a
  | .mul a b => SmoothE a ∧ SmoothE b
  | .sigmoid a => SmoothE a
  | .square a => SmoothE a
  | .prim F a => (∀ n x, HasDerivAt (F n) (F (n + 1) x) x) ∧ SmoothE a

/-- `tf.reduce_sum` over a list of scalar nodes. -/
def sumE (l : List Exp) : Exp := l.foldr .add (.const 0)

/-- `tf.reduce_mean` over a list of scalar nodes: sum divided by count. -/
def meanE (l : List Exp) : Exp := .mul (.const (1 / (l.length : ℝ))) (sumE l)

/-! ## `_create_gradvars` (src lines 144-214) as graph construction

Configuration modelled: `n_samples = 1`, arbitrary `dim`, `batch_size` `B`
and `n_vars = dim / B` (`nv`), with variable layout
`log_alpha i = var i`, `eta i = var (dim + i)`,
`log_temperature i = var (2*dim + i)` for `i < dim`.
Inputs, exactly as the method reads them from `self`:
the frozen hard sample `bs` (one float per coordinate; `tf.stop_gradient`
makes it a constant node), and the loss evaluations `f_b`, `f_z`, `f_z_tilde`
(one scalar node per batch row) produced by `_create_loss_evaluations`. -/

/-- `d[log p(b)]/d[log_alpha] = bernoulli_loglikelihood_derivitive(b, log_alpha)`
(src lines 40-43 and 153) as a graph node per coordinate: `b` is a constant,
`log_alpha i` is `var i`. -/
def d_log_p_E (bs : List ℝ) (i : ℕ) : Exp :=
  .sub (.mul (.const (bs.getD i 0)) (.sigmoid (.neg (.var i))))
       (.mul (.sub (.const 1) (.const (bs.getD i 0)))
             (.sub (.const 1) (.sigmoid (.neg (.var i)))))

/-- The tensors produced by `_create_gradvars`. -/
structure Gradvars where
  term1 : List Exp
  term2 : List Exp
  rebar : List Exp
  reinforce : List Exp
  d_var_d_eta : List Exp
  d_var_d_temperature : List Exp

/-- `term1 = ((f_b - eta * f_z_tilde) * d_log_p)[0]` (src line 161): row `0`
of the broadcast product, one node per coordinate `i < dim`. -/
def term1_E (dim : ℕ) (bs : List ℝ) (f_b f_z_tilde : List Exp) : List Exp :=
  (List.range dim).map
    (fun i => .mul (.sub (f_b.getD 0 (.const 0))
                         (.mul (.var (dim + i)) (f_z_tilde.getD 0 (.const 0))))
                   (d_log_p_E bs i))

/-- `term2 = tf.gradients(tf.reduce_mean(f_z - f_z_tilde), log_alpha)`
(src lines 163-166): one partial-derivative node per coordinate. -/
def term2_E (dim : ℕ) (f_z f_z_tilde : List Exp) : List Exp :=
  (List.range dim).map (fun i => gradE (meanE (List.zipWith .sub f_z f_z_tilde)) i)

/-- `rebar = term1 + eta * term2` (src line 168). -/
def rebar_E (dim : ℕ) (bs : List ℝ) (f_b f_z f_z_tilde : List Exp) : List Exp :=
  (List.range dim).map
    (fun i => .add ((term1_E dim bs f_b f_z_tilde).getD i (.const 0))
                   (.mul (.var (dim + i)) ((term2_E dim f_z f_z_tilde).getD i (.const 0))))

/-- `reinforce = (f_b * d_log_p)[0]` (src line 169). -/
def reinforce_E (dim : ℕ) (bs : List ℝ) (f_b : List Exp) : List Exp :=
  (List.range dim).map (fun i => .mul (f_b.getD 0 (.const 0)) (d_log_p_E bs i))

/-- `tf.square(rebar)` summed over the output coordinates, the implicit
differentiation target of `tf.gradients(tf.square(rebar), ...)`
(src lines 180-183 and 197-200). -/
def sq_rebar_E (dim : ℕ) (bs : List ℝ) (f_b f_z f_z_tilde : List Exp) : Exp :=
  sumE ((rebar_E dim bs f_b f_z f_z_tilde).map .square)

/-- `d_var_d_eta = reduce_mean(reshape(tf.gradients(tf.square(rebar), eta),
[batch_size, n_vars]), axis=0)` (src lines 180-187): entry `k < nv` averages
the per-coordinate partials over the `B` batch rows. -/
def d_var_d_eta_E (dim B nv : ℕ) (bs : List ℝ) (f_b f_z f_z_tilde : List Exp) :
    List Exp :=
  (List.range nv).map
    (fun k => meanE ((List.range B).map
      (fun r => (((List.range dim).map
        (fun i => gradE (sq_rebar_E dim bs f_b f_z f_z_tilde) (dim + i))).getD
          (r * nv + k) (.const 0)))))

/-- The analogous `d_var_d_temperature` (src lines 197-204), differentiating
with respect to the `log_temperature` coordinates `var (2*dim + i)`. -/
def d_var_d_temperature_E (dim B nv : ℕ) (bs : List ℝ) (f_b f_z f_z_tilde : List Exp) :
    List Exp :=
  (List.range nv).map
    (fun k => meanE ((List.range B).map
      (fun r => (((List.range dim).map
        (fun i => gradE (sq_rebar_E dim bs f_b f_z f_z_tilde) (2 * dim + i))).getD
          (r * nv + k) (.const 0)))))

/-- The graph built by `REBAROptimizer._create_gradvars` (src lines 144-214),
assembled from the components above. -/
def create_gradvars (dim B nv : ℕ) (bs : List ℝ) (f_b f_z f_z_tilde : List Exp) :
    Gradvars :=
  ⟨term1_E dim bs f_b f_z_tilde,
   term2_E dim f_z f_z_tilde,
   rebar_E dim bs f_b f_z f_z_tilde,
   reinforce_E dim bs f_b,
   d_var_d_eta_E dim B nv bs f_b f_z f_z_tilde,
   d_var_d_temperature_E dim B nv bs f_b f_z f_z_tilde⟩

/-! ## Training orchestration (`__init__` src lines 47-66, `train` src lines
216-228), modelled at the attribute level -/

/-- The attributes a `REBAROptimizer` owns after `__init__` returns: assigned
in `__init__` itself (src 47-66) and in the four `_create_*` methods it calls
(src 68-214).  No method ever assigns `train_op`. -/
def REBAROptimizer_init_attrs : List String :=
  ["name", "sess", "loss", "dim", "log_alpha", "learning_rate", "n_samples",
   "variance_optimizer", "batch_log_alpha", "batch_size", "_log_alpha",
   "batch_log_temperature", "log_temperature", "tiled_log_temperature",
   "temperature", "batch_eta", "eta", "b", "z", "z_tilde",
   "f_b", "f_z", "f_z_tilde", "rebar", "reinforce",
   "rebar_gradvars", "variance_gradvars", "variance_reduction_op"]

/-- The `self.`-attributes fetched by `sess.run` in the body of the training
loop of `REBAROptimizer.train` (both branches, src lines 222-228). -/
def train_step_run_targets : List String :=
  ["train_op", "rebar", "reinforce", "log_alpha", "log_temperature", "eta"]

/-! ## `RelaxedREBAROptimizer` initialization (src lines 232-241, 262-327) -/

/-- Python `a / b` on integers: raises `ZeroDivisionError` when `b = 0`. -/
def py_int_div (a b : ℤ) : Except String ℤ :=
  if b = 0 then Except.error "ZeroDivisionError" else Except.ok (a / b)

/-- Python `l[0]`: raises `IndexError` on an empty list. -/
def py_index0 {α : Type} (l : List α) : Except String α :=
  match l with
  | [] => Except.error "IndexError"
  | x :: _ => Except.ok x

/-- `RelaxedREBAROptimizer._Q_gradvars` (src lines 262-327), modelled at the
level of its fallible statements: after building the (non-failing) `term1`
and `term2` graph nodes, it executes `q_var = self.Q_vars[0]` (line 301) and
then the bare statement `1/0` (line 308); every later statement — including
the construction of the gradient-variable pairs — is unreachable (and would
reference undefined names anyway).  `Q_vars` is the list of trainable
variables of the surrogate. -/
def Q_gradvars (Q_vars : List String) : Except String (List (String × String)) := do
  let _q_var ← py_index0 Q_vars
  let _ ← py_int_div 1 0
  Except.ok []

/-- `RelaxedREBAROptimizer.__init__` (src lines 232-241) after the base-class
initialization succeeded: it calls `self._Q_gradvars()` (line 237) and then
would build the optimizer ops from the returned pairs. -/
def RelaxedREBAROptimizer_init (Q_vars : List String) : Except String Unit := do
  let _gv ← Q_gradvars Q_vars
  Except.ok ()

/-! # Theorems -/

/-! ## Helper lemmas on `sigmoid` and `softplus` -/

lemma one_add_exp_pos (x : ℝ) : (0:ℝ) < 1 + Real.exp x := by positivity

lemma one_add_exp_ne (x : ℝ) : (1:ℝ) + Real.exp x ≠ 0 := ne_of_gt (one_add_exp_pos x)

/-- The stable `softplus` agrees with the textbook `log(1 + exp x)`. -/
lemma softplus_eq_log (x : ℝ) : softplus x = Real.log (1 + Real.exp x) := by
  unfold softplus
  rcases le_total x 0 with h | h
  · rw [max_eq_left h]
    simp
  · rw [max_eq_right h, sub_self, Real.exp_zero,
      show (1:ℝ) + Real.exp x = Real.exp x * (Real.exp (-x) + 1) by
        rw [mul_add, ← Real.exp_add, add_neg_cancel, Real.exp_zero, mul_one, add_comm],
      Real.log_mul (Real.exp_ne_zero x) (by positivity), Real.log_exp]

lemma sigmoid_pos (x : ℝ) : 0 < sigmoid x := by
  unfold sigmoid; positivity

lemma sigmoid_lt_one (x : ℝ) : sigmoid x < 1 := by
  unfold sigmoid
  rw [div_lt_one (one_add_exp_pos (-x))]
  linarith [Real.exp_pos (-x)]

lemma sigmoid_eq_inv (x : ℝ) : sigmoid x = (1 + Real.exp (-x))⁻¹ := by
  simp [sigmoid, one_div]

lemma sigmoid_neg_exp_form (x : ℝ) :
    sigmoid (-x) = Real.exp (-x) / (1 + Real.exp (-x)) := by
  unfold sigmoid
  rw [neg_neg, Real.exp_neg]
  have h := Real.exp_pos x
  field_simp
  ring

lemma sigmoid_neg_eq (x : ℝ) : sigmoid (-x) = 1 - sigmoid x := by
  rw [sigmoid_neg_exp_form]
  unfold sigmoid
  have h : (1:ℝ) + Real.exp (-x) ≠ 0 := one_add_exp_ne (-x)
  field_simp

lemma hasDerivAt_one_add_exp_neg (x : ℝ) :
    HasDerivAt (fun t : ℝ => 1 + Real.exp (-t)) (-Real.exp (-x)) x := by
  have h := (Real.hasDerivAt_exp (-x)).comp x (hasDerivAt_neg x)
  simpa [Function.comp, mul_comm] using h.const_add 1

/-- Derivative of the logistic sigmoid. -/
lemma hasDerivAt_sigmoid (x : ℝ) :
    HasDerivAt sigmoid (sigmoid x * (1 - sigmoid x)) x := by
  have h3 := (hasDerivAt_one_add_exp_neg x).inv (one_add_exp_ne (-x))
  have h4 : HasDerivAt sigmoid (Real.exp (-x) / (1 + Real.exp (-x)) ^ 2) x := by
    have hfun : sigmoid = fun t : ℝ => (1 + Real.exp (-t))⁻¹ := funext sigmoid_eq_inv
    rw [hfun]
    convert h3 using 1
    field_simp
  convert h4 using 1
  unfold sigmoid
  have h : (1:ℝ) + Real.exp (-x) ≠ 0 := one_add_exp_ne (-x)
  field_simp
  ring

/-- Derivative of `log(1 + exp(-t))`, the softplus composite in the
log-likelihood. -/
lemma hasDerivAt_log_one_add_exp_neg (x : ℝ) :
    HasDerivAt (fun t : ℝ => Real.log (1 + Real.exp (-t))) (-sigmoid (-x)) x := by
  have h := (hasDerivAt_one_add_exp_neg x).log (one_add_exp_ne (-x))
  convert h using 1
  rw [sigmoid_neg_exp_form]
  ring

/-! ## Claim C8: the stable softplus is exact and its log argument is in [1,2] -/

/-- C8: for every real `x`, the stable formulation
`softplus(x) = max(0,x) + log(exp(-max(0,x)) + exp(x - max(0,x)))` equals
`log(1 + exp x)` exactly, and the argument of the outer log lies in `[1, 2]`. -/
theorem softplus_stable_exact_and_bounded (x : ℝ) :
    softplus x = Real.log (1 + Real.exp x) ∧
    1 ≤ Real.exp (-(max 0 x)) + Real.exp (x - max 0 x) ∧
    Real.exp (-(max 0 x)) + Real.exp (x - max 0 x) ≤ 2 := by
  refine ⟨softplus_eq_log x, ?_, ?_⟩ <;>
    rcases le_total x 0 with h | h
  · rw [max_eq_left h]
    simp only [neg_zero, Real.exp_zero, sub_zero]
    linarith [Real.exp_pos x]
  · rw [max_eq_right h, sub_self, Real.exp_zero]
    linarith [Real.exp_pos (-x)]
  · rw [max_eq_left h]
    simp only [neg_zero, Real.exp_zero, sub_zero]
    have : Real.exp x ≤ 1 := by
      calc Real.exp x ≤ Real.exp 0 := Real.exp_le_exp.mpr h
      _ = 1 := Real.exp_zero
    linarith
  · rw [max_eq_right h, sub_self, Real.exp_zero]
    have : Real.exp (-x) ≤ 1 := by
      calc Real.exp (-x) ≤ Real.exp 0 := Real.exp_le_exp.mpr (by linarith)
      _ = 1 := Real.exp_zero
    linarith

/-! ## Claim C5: the analytic likelihood derivative is the true derivative -/

/-- C5: for every `log_alpha` and every `b ∈ {0,1}`, the analytic formula
`bernoulli_loglikelihood_derivitive(b, log_alpha)` is the derivative of
`bernoulli_loglikelihood(b, ·)` at `log_alpha`. -/
theorem bernoulli_loglikelihood_derivitive_correct (b la : ℝ) (hb : b = 0 ∨ b = 1) :
    HasDerivAt (fun t => bernoulli_loglikelihood b t)
      (bernoulli_loglikelihood_derivitive b la) la := by
  clear hb
  have heq : (fun t => bernoulli_loglikelihood b t) =
      fun t => b * (-Real.log (1 + Real.exp (-t))) +
        (1 - b) * (-t - Real.log (1 + Real.exp (-t))) := by
    funext t
    rw [bernoulli_loglikelihood, softplus_eq_log]
  rw [heq]
  have hlog := hasDerivAt_log_one_add_exp_neg la
  have hA : HasDerivAt (fun t : ℝ => b * (-Real.log (1 + Real.exp (-t))))
      (b * sigmoid (-la)) la := by
    simpa using (hlog.neg).const_mul b
  have hB : HasDerivAt (fun t : ℝ => (1 - b) * (-t - Real.log (1 + Real.exp (-t))))
      ((1 - b) * (-1 - -sigmoid (-la))) la := by
    exact ((hasDerivAt_id la).neg.sub hlog).const_mul (1 - b)
  have h := hA.add hB
  convert h using 1
  unfold bernoulli_loglikelihood_derivitive
  ring

/-- Witness for C5 at `b = 1`, `log_alpha = 0`. -/
theorem bernoulli_loglikelihood_derivitive_correct_witness :
    HasDerivAt (fun t => bernoulli_loglikelihood 1 t)
      (bernoulli_loglikelihood_derivitive 1 0) 0 :=
  bernoulli_loglikelihood_derivitive_correct 1 0 (Or.inr rfl)

/-! ## Claim C7: the likelihood derivative fails exactly on shape mismatch -/

/-- C7: `bernoulli_loglikelihood_derivitive` raises (`AssertionError`) if and
only if the static shapes of `b` and `log_alpha` differ; on equal shapes it
returns a result, never silently broadcasting. -/
theorem bernoulli_loglikelihood_derivitive_shape_contract (b la : TensorR) :
    ((∃ t, bernoulli_loglikelihood_derivitive_t b la = Except.ok t) ↔ gs b = gs la) ∧
    (bernoulli_loglikelihood_derivitive_t b la = Except.error "AssertionError" ↔
      gs b ≠ gs la) := by
  unfold bernoulli_loglikelihood_derivitive_t
  by_cases h : gs b = gs la <;> simp [h]

/-! ## Claim C10: the hard sample is exactly zero-one valued -/

/-- C10: for every `log_alpha` and uniform draw `u`, each coordinate of the
hard sample `b = tf.to_float(tf.stop_gradient(z > 0))` is exactly `0` or
exactly `1`, so `b` satisfies the `b ∈ {0,1}` contract assumed (unchecked) by
`bernoulli_loglikelihood`. -/
theorem b_sample_mem_zero_one (la u : ℝ) :
    b_sample la u = 0 ∨ b_sample la u = 1 := by
  unfold b_sample
  split_ifs
  · exact Or.inr rfl
  · exact Or.inl rfl

/-! ## Claim C4: the training-loop body does not perform the claimed updates -/

/-- C4 (refuting the claim; the code is at fault): the loop body of
`REBAROptimizer.train` fetches `self.train_op`, but no attribute `train_op`
is ever created by `__init__` or any helper — the model-parameter update op
does not exist (an `AttributeError` at the first loop iteration) — and the
loop body never fetches `variance_reduction_op`, so the variance-reduction
update is not run either. -/
theorem train_step_missing_updates :
    ("train_op" ∈ train_step_run_targets ∧
      "train_op" ∉ REBAROptimizer_init_attrs) ∧
    "variance_reduction_op" ∉ train_step_run_targets := by
  decide

/-! ## Claim C9: the surrogate variant can never finish initialization -/

/-- C9: `RelaxedREBAROptimizer._Q_gradvars` always raises before producing
any gradient pairs — via the unconditional `1/0` (`ZeroDivisionError`) on the
normal path, or `IndexError` first in the degenerate case of a surrogate with
no trainable variables — so `RelaxedREBAROptimizer.__init__` fails for every
input configuration and surrogate-variant training can never start. -/
theorem relaxed_rebar_init_always_fails (Q_vars : List String) :
    RelaxedREBAROptimizer_init Q_vars =
      Except.error (if Q_vars.isEmpty then "IndexError" else "ZeroDivisionError") := by
  cases Q_vars <;> rfl

/-! ## Sampler lemmas for Claim C3 -/

lemma eps_pos : (0:ℝ) < eps := by norm_num [eps]

lemma eps_lt_one : eps < (1:ℝ) := by norm_num [eps]

lemma clip_of_mem {x : ℝ} (h1 : eps ≤ x) (h2 : x ≤ 1) : clip_by_value x eps 1 = x := by
  unfold clip_by_value
  rw [max_eq_left h1]
  exact min_eq_left h2

lemma u_prime_eq_inv (la : ℝ) : u_prime la = (1 + Real.exp la)⁻¹ := by
  simp [u_prime, sigmoid, one_div, neg_neg]

lemma u_prime_pos (la : ℝ) : 0 < u_prime la := sigmoid_pos _

lemma u_prime_lt_one (la : ℝ) : u_prime la < 1 := sigmoid_lt_one _

lemma one_sub_u_prime (la : ℝ) :
    1 - u_prime la = Real.exp la / (1 + Real.exp la) := by
  rw [u_prime_eq_inv]
  have h := one_add_exp_ne la
  field_simp

/-- The defining property of `u_prime`: the logistic transform vanishes
there, `log_alpha + log(u_prime) - log(1 - u_prime) = 0` ("g(u', log_alpha) = 0",
src line 117). -/
lemma log_ratio_u_prime (la : ℝ) :
    la + Real.log (u_prime la) - Real.log (1 - u_prime la) = 0 := by
  rw [one_sub_u_prime, u_prime_eq_inv, Real.log_inv,
    Real.log_div (Real.exp_ne_zero la) (one_add_exp_ne la), Real.log_exp]
  ring

lemma clip_le_of_le {x y : ℝ} (hx : x ≤ y) (he : eps ≤ y) :
    clip_by_value x eps 1 ≤ y :=
  le_trans (min_le_left _ _) (max_le hx he)

lemma clip_pos (x : ℝ) : 0 < clip_by_value x eps 1 :=
  lt_min (lt_of_lt_of_le eps_pos (le_max_right x eps)) one_pos

lemma v_cond_one (la w : ℝ) : v_cond la 1 w = w * (1 - u_prime la) + u_prime la := by
  unfold v_cond; ring

lemma v_cond_zero (la w : ℝ) : v_cond la 0 w = w * u_prime la := by
  unfold v_cond; ring

/-- When `b = 1`, the conditionally resampled `z_tilde` is nonnegative,
provided `u_prime` is not in the clipping-saturated band. -/
lemma z_tilde_cond_one_nonneg (la w : ℝ) (hw0 : 0 ≤ w) (hw1 : w < 1)
    (hlo : eps ≤ u_prime la) (hhi : u_prime la ≤ 1 - eps) :
    0 ≤ z_tilde_cond la 1 w := by
  have hup0 : 0 < u_prime la := u_prime_pos la
  have hup1 : u_prime la < 1 := u_prime_lt_one la
  have hv := v_cond_one la w
  set v := v_cond la 1 w with hvdef
  have hv_lo : u_prime la ≤ v := by
    rw [hv]; nlinarith
  have hv_hi : v < 1 := by
    rw [hv]; nlinarith
  have hclip_v : clip_by_value v eps 1 = v :=
    clip_of_mem (le_trans hlo hv_lo) (le_of_lt hv_hi)
  have hclip_1v_le : clip_by_value (1 - v) eps 1 ≤ 1 - u_prime la :=
    clip_le_of_le (by linarith) (by linarith)
  have hclip_1v_pos : 0 < clip_by_value (1 - v) eps 1 := clip_pos _
  have hlog_v : Real.log (u_prime la) ≤ Real.log v := Real.log_le_log hup0 hv_lo
  have hlog_1v : Real.log (clip_by_value (1 - v) eps 1) ≤ Real.log (1 - u_prime la) :=
    Real.log_le_log hclip_1v_pos hclip_1v_le
  have hkey := log_ratio_u_prime la
  unfold z_tilde_cond safe_log_prob
  rw [← hvdef, hclip_v]
  linarith

/-- When `b = 0`, the conditionally resampled `z_tilde` is nonpositive,
provided `u_prime` is not in the clipping-saturated band. -/
lemma z_tilde_cond_zero_nonpos (la w : ℝ) (hw0 : 0 ≤ w) (hw1 : w < 1)
    (hlo : eps ≤ u_prime la) (hhi : u_prime la ≤ 1 - eps) :
    z_tilde_cond la 0 w ≤ 0 := by
  have hup0 : 0 < u_prime la := u_prime_pos la
  have hup1 : u_prime la < 1 := u_prime_lt_one la
  have hv := v_cond_zero la w
  set v := v_cond la 0 w with hvdef
  have hv_lo : 0 ≤ v := by rw [hv]; positivity
  have hv_hi : v < u_prime la := by rw [hv]; nlinarith
  have hclip_v_le : clip_by_value v eps 1 ≤ u_prime la :=
    clip_le_of_le (le_of_lt hv_hi) hlo
  have hclip_v_pos : 0 < clip_by_value v eps 1 := clip_pos _
  have hclip_1v : clip_by_value (1 - v) eps 1 = 1 - v :=
    clip_of_mem (by linarith) (by linarith)
  have hlog_v : Real.log (clip_by_value v eps 1) ≤ Real.log (u_prime la) :=
    Real.log_le_log hclip_v_pos hclip_v_le
  have hlog_1v : Real.log (1 - u_prime la) ≤ Real.log (1 - v) :=
    Real.log_le_log (by linarith) (by linarith)
  have hkey := log_ratio_u_prime la
  unfold z_tilde_cond safe_log_prob
  rw [← hvdef, hclip_1v]
  linarith

/-! ## Claim C3: sign consistency of the conditional resample -/

/-- C3 (refuting strictness): at `log_alpha = 0`, `u = 9/10`, `v_raw = 0` the
hard sample is `b = 1` but the resampled `z_tilde` equals `0`, which is not
strictly positive — `sign(z_tilde) = 0 ≠ 1 = b`. -/
theorem z_tilde_sign_counterexample :
    b_sample 0 (9/10) = 1 ∧ ¬ (0 < z_tilde_sample 0 (9/10) 0) := by
  have hup : u_prime 0 = 1/2 := by
    rw [u_prime_eq_inv, Real.exp_zero]; norm_num
  have hz : 0 < z_sample 0 (9/10) := by
    unfold z_sample safe_log_prob
    rw [show (1:ℝ) - 9/10 = 1/10 by norm_num,
      clip_of_mem (by norm_num [eps]) (by norm_num),
      clip_of_mem (by norm_num [eps]) (by norm_num)]
    have := Real.log_lt_log (by norm_num : (0:ℝ) < 1/10)
      (by norm_num : (1:ℝ)/10 < 9/10)
    linarith
  have hb : b_sample 0 (9/10) = 1 := by unfold b_sample; rw [if_pos hz]
  refine ⟨hb, ?_⟩
  have hv : v_cond 0 (1:ℝ) 0 = 1/2 := by rw [v_cond_one, hup]; ring
  have hzt : z_tilde_sample 0 (9/10) 0 = 0 := by
    unfold z_tilde_sample
    rw [hb]
    unfold z_tilde_cond safe_log_prob
    rw [hv]
    norm_num
  rw [hzt]
  exact lt_irrefl 0

/-- C3 (amended): away from the clipping-saturated band of `log_alpha`
(`eps ≤ u_prime ≤ 1 - eps`), the conditional resample is sign-consistent in
the weak sense: `b = 1` forces `z_tilde ≥ 0` and `b = 0` forces
`z_tilde ≤ 0` for every uniform draw pair; `z_tilde = 0` is attained (at
`v_raw = 0`), so the strict version fails. -/
theorem z_tilde_sign_matches_b (la u w : ℝ) (hw0 : 0 ≤ w) (hw1 : w < 1)
    (hlo : eps ≤ u_prime la) (hhi : u_prime la ≤ 1 - eps) :
    (b_sample la u = 1 → 0 ≤ z_tilde_sample la u w) ∧
    (b_sample la u = 0 → z_tilde_sample la u w ≤ 0) := by
  constructor
  · intro hb
    unfold z_tilde_sample
    rw [hb]
    exact z_tilde_cond_one_nonneg la w hw0 hw1 hlo hhi
  · intro hb
    unfold z_tilde_sample
    rw [hb]
    exact z_tilde_cond_zero_nonpos la w hw0 hw1 hlo hhi

/-- Witness for the amended C3 at `log_alpha = 0`, `u = 9/10`, `v_raw = 1/2`. -/
theorem z_tilde_sign_matches_b_witness :
    (b_sample 0 (9/10) = 1 → 0 ≤ z_tilde_sample 0 (9/10) (1/2)) ∧
    (b_sample 0 (9/10) = 0 → z_tilde_sample 0 (9/10) (1/2) ≤ 0) := by
  have hup : u_prime 0 = 1/2 := by
    rw [u_prime_eq_inv, Real.exp_zero]; norm_num
  exact z_tilde_sign_matches_b 0 (9/10) (1/2) (by norm_num) (by norm_num)
    (by rw [hup]; norm_num [eps]) (by rw [hup]; norm_num [eps])

/-! ## Numeric range lemmas for the clipping analysis (Claim C2) -/

lemma exp18_lt : Real.exp 18 < 99999999 := by
  have h1 : Real.exp 18 = Real.exp 1 ^ 18 := by
    rw [show (18:ℝ) = ((18:ℕ):ℝ) * 1 by norm_num, Real.exp_nat_mul]
  rw [h1]
  calc Real.exp 1 ^ 18 < 2.7182818286 ^ 18 :=
        pow_lt_pow_left Real.exp_one_lt_d9 (le_of_lt (Real.exp_pos 1)) (by norm_num)
  _ < 99999999 := by norm_num

lemma exp20_gt : (100000000:ℝ) < Real.exp 20 := by
  have h1 : Real.exp 20 = Real.exp 1 ^ 20 := by
    rw [show (20:ℝ) = ((20:ℕ):ℝ) * 1 by norm_num, Real.exp_nat_mul]
  rw [h1]
  calc (100000000:ℝ) < 2.7182818283 ^ 20 := by norm_num
  _ < Real.exp 1 ^ 20 :=
        pow_lt_pow_left Real.exp_one_gt_d9 (by norm_num) (by norm_num)

lemma eps_mul_exp18 : eps * Real.exp 18 < 1 - eps := by
  have h := exp18_lt
  have h2 : eps * Real.exp 18 < eps * 99999999 :=
    (mul_lt_mul_left eps_pos).mpr h
  have h3 : eps * 99999999 = 1 - eps := by norm_num [eps]
  linarith

lemma eps_lt_expneg18_mul : eps < Real.exp (-18) * (1 - eps) := by
  have hprod : Real.exp 18 * Real.exp (-18) = 1 := by
    rw [← Real.exp_add]; norm_num
  have h2 : eps * Real.exp 18 * Real.exp (-18) < (1 - eps) * Real.exp (-18) :=
    mul_lt_mul_of_pos_right eps_mul_exp18 (Real.exp_pos _)
  have h3 : eps * Real.exp 18 * Real.exp (-18) = eps := by
    rw [mul_assoc, hprod, mul_one]
  linarith [h2, h3, mul_comm (Real.exp (-18)) (1 - eps)]

lemma clip_eq_max {x : ℝ} (hx : x ≤ 1) : clip_by_value x eps 1 = max x eps :=
  min_eq_left (max_le hx (le_of_lt eps_lt_one))

lemma clip_ge_eps (x : ℝ) : eps ≤ clip_by_value x eps 1 :=
  le_min (le_max_right _ _) (le_of_lt eps_lt_one)

lemma clip_le_one (x : ℝ) : clip_by_value x eps 1 ≤ 1 := min_le_right _ _

/-- Outside the clipping-saturated band (`|log_alpha| ≤ 18`), the hard-sample
decision of the sampler is exactly the textbook inverse-CDF rule:
`z > 0` if and only if `u > sigmoid(-log_alpha)`. -/
lemma z_sample_pos_iff (la u : ℝ) (hla : |la| ≤ 18) (hu0 : 0 < u) (hu1 : u < 1) :
    (0 < z_sample la u ↔ u_prime la < u) := by
  obtain ⟨hla1, hla2⟩ := abs_le.mp hla
  have hK1 : Real.exp (-la) ≤ Real.exp 18 := Real.exp_le_exp.mpr (by linarith)
  have hK2 : Real.exp (-18) ≤ Real.exp (-la) := Real.exp_le_exp.mpr (by linarith)
  set K := Real.exp (-la) with hKdef
  have hKpos : 0 < K := Real.exp_pos _
  set A := max u eps with hA
  set Bm := max (1 - u) eps with hB
  have hApos : 0 < A := lt_of_lt_of_le hu0 (le_max_left _ _)
  have hBpos : 0 < Bm := lt_of_lt_of_le eps_pos (le_max_right _ _)
  have hz : z_sample la u = la + Real.log A - Real.log Bm := by
    unfold z_sample safe_log_prob
    rw [clip_eq_max (le_of_lt hu1), clip_eq_max (by linarith)]
  have step1 : (0 < z_sample la u ↔ K * Bm < A) := by
    rw [hz]
    have h1 : la + Real.log A - Real.log Bm = Real.log (A / Bm) - (-la) := by
      rw [Real.log_div (ne_of_gt hApos) (ne_of_gt hBpos)]; ring
    rw [h1, sub_pos, Real.lt_log_iff_exp_lt (div_pos hApos hBpos), ← hKdef,
      lt_div_iff hBpos]
  have hEla : Real.exp la * K = 1 := by
    rw [hKdef, ← Real.exp_add]; simp
  have step2 : (u_prime la < u ↔ K * (1 - u) < u) := by
    rw [u_prime_eq_inv, inv_eq_one_div, div_lt_iff (one_add_exp_pos la)]
    constructor
    · intro h
      nlinarith [mul_lt_mul_of_pos_right h hKpos, hEla]
    · intro h
      nlinarith [mul_lt_mul_of_pos_left h (Real.exp_pos la), hEla]
  rw [step1, step2]
  rcases lt_or_le u eps with hcase | hcase
  · -- u below the clip threshold: both sides are false
    have heps_half : eps ≤ (1:ℝ)/2 := by norm_num [eps]
    have hBm : Bm = 1 - u := by
      rw [hB]; exact max_eq_left (by linarith)
    have hA2 : A = eps := by
      rw [hA]; exact max_eq_right (le_of_lt hcase)
    have hlow : Real.exp (-18) * (1 - eps) ≤ K * (1 - u) :=
      mul_le_mul hK2 (by linarith) (by linarith [eps_lt_one]) (le_of_lt hKpos)
    have hbig : eps < K * (1 - u) := lt_of_lt_of_le eps_lt_expneg18_mul hlow
    constructor
    · intro h; exfalso; rw [hA2, hBm] at h; linarith
    · intro h; exfalso; linarith
  · rcases lt_or_le (1 - u) eps with hcase2 | hcase2
    · -- u above the upper clip threshold: both sides are true
      have hA2 : A = u := by rw [hA]; exact max_eq_left hcase
      have hBm : Bm = eps := by rw [hB]; exact max_eq_right (le_of_lt hcase2)
      have key : K * eps < 1 - eps := by
        have h1 : K * eps ≤ Real.exp 18 * eps :=
          mul_le_mul_of_nonneg_right hK1 (le_of_lt eps_pos)
        have h2 : Real.exp 18 * eps = eps * Real.exp 18 := mul_comm _ _
        linarith [eps_mul_exp18]
      constructor
      · intro _
        have h3 : K * (1 - u) < K * eps := (mul_lt_mul_left hKpos).mpr hcase2
        linarith
      · intro _
        rw [hA2, hBm]
        linarith
    · -- interior: clipping inactive, the two sides coincide literally
      have hA2 : A = u := by rw [hA]; exact max_eq_left hcase
      have hBm : Bm = 1 - u := by rw [hB]; exact max_eq_left hcase2
      rw [hA2, hBm]

/-! ## Expectation computations for Claim C2 -/

lemma rebar_fun_eta_zero (f : ℝ → ℝ) (T la u w : ℝ) :
    rebar_fun f T 0 la u w =
      f (b_sample la u) * bernoulli_loglikelihood_derivitive (b_sample la u) la := by
  unfold rebar_fun
  ring

lemma setIntegral_Ioo01_const (c : ℝ) : (∫ _w in Ioo (0:ℝ) 1, c) = c := by
  rw [MeasureTheory.setIntegral_const, Real.volume_Ioo]
  norm_num

lemma bll_derivitive_one (la : ℝ) :
    bernoulli_loglikelihood_derivitive 1 la = u_prime la := by
  unfold bernoulli_loglikelihood_derivitive u_prime
  ring

lemma bll_derivitive_zero (la : ℝ) :
    bernoulli_loglikelihood_derivitive 0 la = -(1 - u_prime la) := by
  unfold bernoulli_loglikelihood_derivitive u_prime
  ring

/-- The derivative of the exact expected loss. -/
lemma true_grad_eq (f : ℝ → ℝ) (la : ℝ) :
    true_grad f la = sigmoid la * (1 - sigmoid la) * (f 1 - f 0) := by
  unfold true_grad
  have h1 := (hasDerivAt_sigmoid la).mul_const (f 1)
  have h2 := ((hasDerivAt_const la (1:ℝ)).sub (hasDerivAt_sigmoid la)).mul_const (f 0)
  have h : HasDerivAt (true_expected_loss f)
      (sigmoid la * (1 - sigmoid la) * f 1 +
        (0 - sigmoid la * (1 - sigmoid la)) * f 0) la := h1.add h2
  rw [h.deriv]
  ring

/-- Special case of the unbiasedness in the non-saturated band at `eta = 0`,
where the estimator reduces to its score-function component and no
differentiability of the loss is needed (see `rebar_unbiased_nonsaturated`
below for the general-`eta` statement). -/
theorem rebar_unbiased_moderate (f : ℝ → ℝ) (T la : ℝ) (hla : |la| ≤ 18) :
    rebar_expectation f T 0 la = true_grad f la := by
  have hc0 : 0 < u_prime la := u_prime_pos la
  have hc1 : u_prime la < 1 := u_prime_lt_one la
  set c := u_prime la with hcdef
  set g : ℝ → ℝ :=
    fun u => f (b_sample la u) * bernoulli_loglikelihood_derivitive (b_sample la u) la
    with hgdef
  have hA : rebar_expectation f T 0 la = ∫ u in Ioo (0:ℝ) 1, g u := by
    unfold rebar_expectation
    simp only [rebar_fun_eta_zero, hgdef, setIntegral_Ioo01_const]
  set V1 := f 1 * bernoulli_loglikelihood_derivitive 1 la with hV1
  set V0 := f 0 * bernoulli_loglikelihood_derivitive 0 la with hV0
  have hsplit : Ioo (0:ℝ) 1 = Ioc 0 c ∪ Ioo c 1 := by
    ext x
    simp only [mem_Ioo, mem_Ioc, mem_union]
    constructor
    · rintro ⟨h1, h2⟩
      rcases le_or_lt x c with h | h
      · exact Or.inl ⟨h1, h⟩
      · exact Or.inr ⟨h, h2⟩
    · rintro (⟨h1, h2⟩ | ⟨h1, h2⟩) <;> constructor <;> linarith
  have hEq0 : EqOn g (fun _ => V0) (Ioc (0:ℝ) c) := by
    intro u hu
    obtain ⟨hu0, huc⟩ := hu
    have hb : b_sample la u = 0 := by
      unfold b_sample
      rw [if_neg]
      rw [z_sample_pos_iff la u hla hu0 (lt_of_le_of_lt huc hc1)]
      exact not_lt.mpr huc
    simp only [hgdef, hb, hV0]
  have hEq1 : EqOn g (fun _ => V1) (Ioo c 1) := by
    intro u hu
    obtain ⟨huc, hu1⟩ := hu
    have hb : b_sample la u = 1 := by
      unfold b_sample
      rw [if_pos]
      rw [z_sample_pos_iff la u hla (lt_trans hc0 huc) hu1]
      exact huc
    simp only [hgdef, hb, hV1]
  have hI0 : (∫ u in Ioc (0:ℝ) c, g u) = c * V0 := by
    rw [MeasureTheory.setIntegral_congr_fun measurableSet_Ioc hEq0,
      MeasureTheory.setIntegral_const, Real.volume_Ioc, smul_eq_mul,
      ENNReal.toReal_ofReal (by linarith : (0:ℝ) ≤ c - 0)]
    ring
  have hI1 : (∫ u in Ioo c 1, g u) = (1 - c) * V1 := by
    rw [MeasureTheory.setIntegral_congr_fun measurableSet_Ioo hEq1,
      MeasureTheory.setIntegral_const, Real.volume_Ioo, smul_eq_mul,
      ENNReal.toReal_ofReal (by linarith : (0:ℝ) ≤ 1 - c)]
  have hdisj : Disjoint (Ioc (0:ℝ) c) (Ioo c 1) := by
    rw [Set.disjoint_left]
    rintro x ⟨_, h2⟩ ⟨h3, _⟩
    exact absurd h3 (not_lt.mpr h2)
  have hint0 : MeasureTheory.IntegrableOn g (Ioc (0:ℝ) c) := by
    apply (MeasureTheory.integrableOn_const.mpr _).congr_fun hEq0.symm measurableSet_Ioc
    right
    rw [Real.volume_Ioc]
    exact ENNReal.ofReal_lt_top
  have hint1 : MeasureTheory.IntegrableOn g (Ioo c 1) := by
    apply (MeasureTheory.integrableOn_const.mpr _).congr_fun hEq1.symm measurableSet_Ioo
    right
    rw [Real.volume_Ioo]
    exact ENNReal.ofReal_lt_top
  have hU : (∫ u in Ioo (0:ℝ) 1, g u) = (∫ u in Ioc (0:ℝ) c, g u) + ∫ u in Ioo c 1, g u := by
    rw [hsplit]
    exact MeasureTheory.setIntegral_union hdisj measurableSet_Ioo hint0 hint1
  rw [hA, hU, hI0, hI1, true_grad_eq, hV0, hV1, bll_derivitive_one, bll_derivitive_zero,
    ← hcdef]
  have hsig : sigmoid la = 1 - c := by
    rw [hcdef]
    unfold u_prime
    rw [sigmoid_neg_eq]
    ring
  rw [hsig]
  ring

/-- Instance of the `eta = 0` special case at `f = id`, `temperature = 1`,
`log_alpha = 0`. -/
theorem rebar_unbiased_moderate_witness :
    rebar_expectation id 1 0 0 = true_grad id 0 :=
  rebar_unbiased_moderate id 1 0 (by norm_num)

/-- At `log_alpha = 20` the clipping saturates the sampler: `z > 0` for every
draw, so the hard sample is constantly `1` even though `sigmoid(20) < 1`. -/
lemma b_sample_saturated (u : ℝ) : b_sample 20 u = 1 := by
  have hlogeps : (-20:ℝ) < Real.log eps := by
    have hinv : Real.exp (-20) < eps := by
      rw [Real.exp_neg, show eps = (100000000:ℝ)⁻¹ by norm_num [eps]]
      exact inv_lt_inv_of_lt (by norm_num) exp20_gt
    have := Real.log_lt_log (Real.exp_pos (-20)) hinv
    rwa [Real.log_exp] at this
  have h1 : Real.log eps ≤ Real.log (clip_by_value u eps 1) :=
    Real.log_le_log eps_pos (clip_ge_eps u)
  have h2 : Real.log (clip_by_value (1 - u) eps 1) ≤ 0 :=
    Real.log_nonpos (le_of_lt (clip_pos _)) (clip_le_one _)
  have hz : 0 < z_sample 20 u := by
    unfold z_sample safe_log_prob
    linarith
  unfold b_sample
  rw [if_pos hz]

/-- C2 (refuting the claim as stated): with the valid differentiable loss
`id`, temperature `1 > 0` and the finite control weight `eta = 0`, at
`log_alpha = 20` the expectation of the estimator over the uniform draws is
`sigmoid(-20)` while the true gradient is `sigmoid(20)·sigmoid(-20)` — the
clipping in `safe_log_prob` saturates the sampler and the estimator is
biased. -/
theorem rebar_biased_at_saturation :
    rebar_expectation id 1 0 20 ≠ true_grad id 20 := by
  have hval : rebar_expectation id 1 0 20 = u_prime 20 := by
    unfold rebar_expectation
    simp only [rebar_fun_eta_zero, setIntegral_Ioo01_const, b_sample_saturated,
      bll_derivitive_one, id_eq, one_mul]
  have htg : true_grad id 20 = sigmoid 20 * (1 - sigmoid 20) := by
    rw [true_grad_eq]
    simp
  rw [hval, htg]
  have h1 : u_prime 20 = 1 - sigmoid 20 := by
    unfold u_prime
    rw [sigmoid_neg_eq]
  intro heq
  rw [h1] at heq
  nlinarith [sigmoid_lt_one 20, sigmoid_pos 20]

/-! ## Correctness of the symbolic reverse-mode differentiation -/

/-- Symbolic differentiation preserves well-formedness, so the gradient node
can itself be differentiated (the second-order graph). -/
lemma SmoothE_gradE (e : Exp) (i : ℕ) (h : SmoothE e) : SmoothE (gradE e i) := by
  induction e with
  | const c => trivial
  | var j => trivial
  | add a b iha ihb => exact ⟨iha h.1, ihb h.2⟩
  | sub a b iha ihb => exact ⟨iha h.1, ihb h.2⟩
  | neg a ih => exact ih h
  | mul a b iha ihb => exact ⟨⟨iha h.1, h.2⟩, h.1, ihb h.2⟩
  | sigmoid a ih => exact ⟨⟨h, trivial, h⟩, ih h⟩
  | square a ih => exact ⟨⟨trivial, h⟩, ih h⟩
  | prim F a ih => exact ⟨⟨fun n x => h.1 (n + 1) x, h.2⟩, ih h.2⟩

/-- Correctness of the symbolic reverse-mode rule set: on a well-formed graph
node, the node built by `gradE e i` evaluates to the true partial derivative
of the evaluation of `e` with respect to variable `i`. -/
theorem hasDerivAt_evalE_gradE (e : Exp) (i : ℕ) (env : ℕ → ℝ) (h : SmoothE e) :
    HasDerivAt (fun t => evalE (Function.update env i t) e)
      (evalE env (gradE e i)) (env i) := by
  induction e with
  | const c => simpa [evalE, gradE] using hasDerivAt_const (env i) c
  | var j =>
    by_cases hj : j = i
    · subst hj
      simp only [evalE, gradE, Function.update_same, if_pos rfl]
      exact hasDerivAt_id (env j)
    · simp only [evalE, gradE, Function.update_noteq hj, if_neg hj]
      exact hasDerivAt_const (env i) (env j)
  | add a b iha ihb => simpa [evalE, gradE] using (iha h.1).add (ihb h.2)
  | sub a b iha ihb => simpa [evalE, gradE] using (iha h.1).sub (ihb h.2)
  | neg a ih => simpa [evalE, gradE] using (ih h).neg
  | mul a b iha ihb =>
    simpa [evalE, gradE, Function.update_eq_self] using (iha h.1).mul (ihb h.2)
  | sigmoid a ih =>
    have hcomp :=
      (hasDerivAt_sigmoid (evalE (Function.update env i (env i)) a)).comp (env i) (ih h)
    simpa [evalE, gradE, Function.comp, Function.update_eq_self] using hcomp
  | square a ih =>
    have hsq := (ih h).pow 2
    have : HasDerivAt (fun t => evalE (Function.update env i t) a ^ 2)
        (evalE env (gradE (.square a) i)) (env i) := by
      convert hsq using 1
      simp only [evalE, gradE, Function.update_eq_self]
      ring
    simpa [evalE] using this
  | prim F a ih =>
    have hop := h.1 0 (evalE (Function.update env i (env i)) a)
    have hcomp := hop.comp (env i) (ih h.2)
    simpa [evalE, gradE, Function.comp, Function.update_eq_self] using hcomp

/-- `deriv` form of the correctness theorem. -/
lemma deriv_evalE_gradE (e : Exp) (i : ℕ) (env : ℕ → ℝ) (h : SmoothE e) :
    deriv (fun t => evalE (Function.update env i t) e) (env i) = evalE env (gradE e i) :=
  (hasDerivAt_evalE_gradE e i env h).deriv

/-! ## Evaluation and well-formedness of the list-level graph pieces -/

lemma evalE_sumE (env : ℕ → ℝ) (l : List Exp) :
    evalE env (sumE l) = (l.map (evalE env)).sum := by
  induction l with
  | nil => simp [sumE, evalE]
  | cons x xs ih => simp [sumE, evalE] at ih ⊢; rw [ih]

lemma evalE_meanE (env : ℕ → ℝ) (l : List Exp) :
    evalE env (meanE l) = (1 / (l.length : ℝ)) * (l.map (evalE env)).sum := by
  simp [meanE, evalE, evalE_sumE]

lemma SmoothE_sumE (l : List Exp) (h : ∀ e ∈ l, SmoothE e) : SmoothE (sumE l) := by
  induction l with
  | nil => trivial
  | cons x xs ih =>
    exact ⟨h x (List.mem_cons_self x xs), ih fun e he => h e (List.mem_cons_of_mem _ he)⟩

lemma SmoothE_meanE (l : List Exp) (h : ∀ e ∈ l, SmoothE e) : SmoothE (meanE l) :=
  ⟨trivial, SmoothE_sumE l h⟩

lemma SmoothE_zipWith_sub :
    ∀ (f_z f_zt : List Exp), (∀ e ∈ f_z, SmoothE e) → (∀ e ∈ f_zt, SmoothE e) →
      ∀ e ∈ List.zipWith Exp.sub f_z f_zt, SmoothE e
  | [], _, _, _ => by simp
  | _ :: _, [], _, _ => by simp
  | x :: xs, y :: ys, h1, h2 => by
    intro e he
    rcases List.mem_cons.mp he with he | he
    · subst he
      exact ⟨h1 x (List.mem_cons_self _ _), h2 y (List.mem_cons_self _ _)⟩
    · exact SmoothE_zipWith_sub xs ys
        (fun a ha => h1 a (List.mem_cons_of_mem _ ha))
        (fun a ha => h2 a (List.mem_cons_of_mem _ ha)) e he

lemma getD_map_range {α : Type} (n : ℕ) (f : ℕ → α) (i : ℕ) (hi : i < n) (d : α) :
    ((List.range n).map f).getD i d = f i := by
  rw [List.getD_eq_getElem?_getD, List.getElem?_map, List.getElem?_range hi]
  rfl

lemma evalE_d_log_p (env : ℕ → ℝ) (bs : List ℝ) (i : ℕ) :
    evalE env (d_log_p_E bs i) =
      bernoulli_loglikelihood_derivitive (bs.getD i 0) (env i) := by
  simp [d_log_p_E, evalE, bernoulli_loglikelihood_derivitive]

lemma SmoothE_getD (l : List Exp) (h : ∀ e ∈ l, SmoothE e) (j : ℕ) :
    SmoothE (l.getD j (.const 0)) := by
  rw [List.getD_eq_getElem?_getD]
  cases hget : l[j]? with
  | none => trivial
  | some e =>
    have hj : j < l.length := by
      by_contra hc
      rw [List.getElem?_eq_none (by omega)] at hget
      exact Option.noConfusion hget
    rw [List.getElem?_eq_getElem hj] at hget
    obtain rfl : l[j] = e := Option.some.inj hget
    exact h _ (List.getElem_mem hj)

lemma SmoothE_d_log_p (bs : List ℝ) (i : ℕ) : SmoothE (d_log_p_E bs i) := by
  simp [d_log_p_E, SmoothE]

/-- Every coordinate node of `rebar` is well formed when the loss-evaluation
inputs are. -/
lemma SmoothE_rebar_mem (dim : ℕ) (bs : List ℝ) (f_b f_z f_z_tilde : List Exp)
    (hfb : ∀ e ∈ f_b, SmoothE e) (hz : ∀ e ∈ f_z, SmoothE e)
    (hzt : ∀ e ∈ f_z_tilde, SmoothE e) :
    ∀ e ∈ rebar_E dim bs f_b f_z f_z_tilde, SmoothE e := by
  intro e he
  unfold rebar_E at he
  obtain ⟨j, hj, rfl⟩ := List.mem_map.mp he
  refine ⟨?_, trivial, ?_⟩
  · apply SmoothE_getD
    intro a ha
    unfold term1_E at ha
    obtain ⟨j2, hj2, rfl⟩ := List.mem_map.mp ha
    exact ⟨⟨SmoothE_getD f_b hfb 0, trivial, SmoothE_getD f_z_tilde hzt 0⟩,
      SmoothE_d_log_p bs j2⟩
  · apply SmoothE_getD
    intro a ha
    unfold term2_E at ha
    obtain ⟨j2, hj2, rfl⟩ := List.mem_map.mp ha
    exact SmoothE_gradE _ _ (SmoothE_meanE _ (SmoothE_zipWith_sub f_z f_z_tilde hz hzt))

lemma SmoothE_sq_rebar (dim : ℕ) (bs : List ℝ) (f_b f_z f_z_tilde : List Exp)
    (hfb : ∀ e ∈ f_b, SmoothE e) (hz : ∀ e ∈ f_z, SmoothE e)
    (hzt : ∀ e ∈ f_z_tilde, SmoothE e) :
    SmoothE (sq_rebar_E dim bs f_b f_z f_z_tilde) := by
  apply SmoothE_sumE
  intro e he
  obtain ⟨r, hr, rfl⟩ := List.mem_map.mp he
  exact SmoothE_rebar_mem dim bs f_b f_z f_z_tilde hfb hz hzt r hr

/-! ## Claim C1: the estimator decomposes as `term1 + eta * term2` -/

/-- C1: for every configuration, every environment (values of `log_alpha`,
`eta`, `log_temperature` and anything the loss nodes read), and every
coordinate `i < dim`, the `rebar` node built by `_create_gradvars` evaluates
to `term1 + eta * term2` where `term1 = (f_b - eta*f_z_tilde) * d_log_p`
with the analytic likelihood derivative, and `term2` is the true derivative
of `mean(f_z - f_z_tilde)` with respect to the `i`-th `log_alpha` coordinate
(the reverse-mode `tf.gradients` node is evaluated and proved equal to the
mathematical derivative). -/
theorem rebar_is_term1_plus_eta_term2
    (dim B nv : ℕ) (bs : List ℝ) (f_b f_z f_z_tilde : List Exp)
    (env : ℕ → ℝ) (i : ℕ) (hi : i < dim)
    (hlen1 : f_z.length = B) (hlen2 : f_z_tilde.length = B)
    (hz : ∀ e ∈ f_z, SmoothE e) (hzt : ∀ e ∈ f_z_tilde, SmoothE e) :
    evalE env ((create_gradvars dim B nv bs f_b f_z f_z_tilde).rebar.getD i (.const 0)) =
      (evalE env (f_b.getD 0 (.const 0)) -
          env (dim + i) * evalE env (f_z_tilde.getD 0 (.const 0))) *
        bernoulli_loglikelihood_derivitive (bs.getD i 0) (env i) +
      env (dim + i) *
        deriv (fun t => (1 / (B : ℝ)) *
          (List.zipWith (fun ez ezt =>
              evalE (Function.update env i t) ez -
              evalE (Function.update env i t) ezt) f_z f_z_tilde).sum)
          (env i) := by
  have hterm2 : evalE env (gradE (meanE (List.zipWith Exp.sub f_z f_z_tilde)) i) =
      deriv (fun t => (1 / (B : ℝ)) *
        (List.zipWith (fun ez ezt =>
            evalE (Function.update env i t) ez -
            evalE (Function.update env i t) ezt) f_z f_z_tilde).sum) (env i) := by
    rw [← deriv_evalE_gradE _ i env
      (SmoothE_meanE _ (SmoothE_zipWith_sub f_z f_z_tilde hz hzt))]
    congr 1
    funext t
    rw [evalE_meanE, List.map_zipWith, List.length_zipWith, hlen1, hlen2, min_self]
    rfl
  show evalE env ((rebar_E dim bs f_b f_z f_z_tilde).getD i (.const 0)) = _
  unfold rebar_E
  rw [getD_map_range dim _ i hi]
  unfold term1_E term2_E
  rw [getD_map_range dim _ i hi, getD_map_range dim _ i hi]
  rw [show evalE env
        (Exp.add
          (Exp.mul (Exp.sub (f_b.getD 0 (Exp.const 0))
              (Exp.mul (Exp.var (dim + i)) (f_z_tilde.getD 0 (Exp.const 0))))
            (d_log_p_E bs i))
          (Exp.mul (Exp.var (dim + i))
            (gradE (meanE (List.zipWith Exp.sub f_z f_z_tilde)) i))) =
      (evalE env (f_b.getD 0 (Exp.const 0)) -
          env (dim + i) * evalE env (f_z_tilde.getD 0 (Exp.const 0))) *
        evalE env (d_log_p_E bs i) +
      env (dim + i) *
        evalE env (gradE (meanE (List.zipWith Exp.sub f_z f_z_tilde)) i) from rfl]
  rw [evalE_d_log_p, hterm2]

/-- Witness for C1 in the scalar configuration with `f_b = [const 5]`,
`f_z = [var 0]`, `f_z_tilde = [const 0]`, `b = [1]` and the zero environment. -/
theorem rebar_is_term1_plus_eta_term2_witness :
    evalE (fun _ => 0)
        ((create_gradvars 1 1 1 [1] [.const 5] [.var 0] [.const 0]).rebar.getD 0
          (.const 0)) =
      (evalE (fun _ => 0) (([Exp.const 5]).getD 0 (.const 0)) -
          0 * evalE (fun _ => 0) (([Exp.const 0]).getD 0 (.const 0))) *
        bernoulli_loglikelihood_derivitive (([(1:ℝ)]).getD 0 0) 0 +
      0 * deriv (fun t => (1 / ((1:ℕ) : ℝ)) *
          (List.zipWith (fun ez ezt =>
              evalE (Function.update (fun _ => (0:ℝ)) 0 t) ez -
              evalE (Function.update (fun _ => (0:ℝ)) 0 t) ezt)
            [Exp.var 0] [Exp.const 0]).sum) 0 :=
  rebar_is_term1_plus_eta_term2 1 1 1 [1] [.const 5] [.var 0] [.const 0]
    (fun _ => 0) 0 (by norm_num) rfl rfl
    (by intro e he; rw [List.mem_singleton.mp he]; trivial)
    (by intro e he; rw [List.mem_singleton.mp he]; trivial)

/-! ## Claim C6: the variance-reduction directions are true derivatives of `rebar²` -/

lemma evalE_sq_rebar (env2 : ℕ → ℝ) (dim : ℕ) (bs : List ℝ)
    (f_b f_z f_z_tilde : List Exp) :
    evalE env2 (sq_rebar_E dim bs f_b f_z f_z_tilde) =
      ((rebar_E dim bs f_b f_z f_z_tilde).map (fun e => evalE env2 e ^ 2)).sum := by
  unfold sq_rebar_E
  rw [evalE_sumE, List.map_map]
  rfl

lemma evalE_gradE_sq_rebar (env : ℕ → ℝ) (j : ℕ) (dim : ℕ) (bs : List ℝ)
    (f_b f_z f_z_tilde : List Exp)
    (hfb : ∀ e ∈ f_b, SmoothE e) (hz : ∀ e ∈ f_z, SmoothE e)
    (hzt : ∀ e ∈ f_z_tilde, SmoothE e) :
    evalE env (gradE (sq_rebar_E dim bs f_b f_z f_z_tilde) j) =
      deriv (fun t => ((rebar_E dim bs f_b f_z f_z_tilde).map
        (fun e => evalE (Function.update env j t) e ^ 2)).sum) (env j) := by
  rw [← deriv_evalE_gradE _ j env (SmoothE_sq_rebar dim bs f_b f_z f_z_tilde hfb hz hzt)]
  congr 1
  funext t
  exact evalE_sq_rebar _ dim bs f_b f_z f_z_tilde

/-- Evaluation of one batch-averaged variance-gradient coordinate, for a
generic offset `base` into the variable layout (`base = dim` for `eta`,
`base = 2*dim` for `log_temperature`). -/
lemma evalE_d_var_list (env : ℕ → ℝ) (dim B nv : ℕ) (bs : List ℝ)
    (f_b f_z f_z_tilde : List Exp) (base k : ℕ) (hk : k < nv) (hdim : dim = B * nv)
    (hfb : ∀ e ∈ f_b, SmoothE e) (hz : ∀ e ∈ f_z, SmoothE e)
    (hzt : ∀ e ∈ f_z_tilde, SmoothE e) :
    evalE env (((List.range nv).map (fun k2 => meanE ((List.range B).map
        (fun r => (((List.range dim).map
          (fun i2 => gradE (sq_rebar_E dim bs f_b f_z f_z_tilde) (base + i2))).getD
            (r * nv + k2) (.const 0)))))).getD k (.const 0)) =
      (1 / (B : ℝ)) * ((List.range B).map (fun r =>
        deriv (fun t => ((rebar_E dim bs f_b f_z f_z_tilde).map
          (fun e => evalE (Function.update env (base + (r * nv + k)) t) e ^ 2)).sum)
          (env (base + (r * nv + k))))).sum := by
  rw [getD_map_range nv _ k hk, evalE_meanE, List.length_map, List.length_range,
    List.map_map]
  congr 1
  apply congrArg List.sum
  apply List.map_congr_left
  intro r hr
  have hrB : r < B := List.mem_range.mp hr
  have hj : r * nv + k < dim := by
    rw [hdim]
    calc r * nv + k < r * nv + nv := by omega
    _ = (r + 1) * nv := by ring
    _ ≤ B * nv := Nat.mul_le_mul_right nv (by omega)
  show evalE env ((((List.range dim).map
      (fun i2 => gradE (sq_rebar_E dim bs f_b f_z f_z_tilde) (base + i2))).getD
        (r * nv + k) (.const 0))) = _
  rw [getD_map_range dim _ (r * nv + k) hj]
  exact evalE_gradE_sq_rebar env (base + (r * nv + k)) dim bs f_b f_z f_z_tilde hfb hz hzt

/-- C6: each coordinate of the variance-reduction update directions built by
`_create_gradvars` evaluates to the batch-average (mean over the `B` rows of
the `[B, nv]` reshape) of the true derivative of the squared estimator
`Σᵢ rebarᵢ²` with respect to the corresponding `eta` coordinate, and likewise
with respect to the corresponding `log_temperature` coordinate — the
second-order reverse-mode graph is evaluated and proved equal to the
mathematical derivatives. -/
theorem variance_gradvars_are_reverse_mode_derivs
    (dim B nv : ℕ) (bs : List ℝ) (f_b f_z f_z_tilde : List Exp)
    (env : ℕ → ℝ) (k : ℕ) (hk : k < nv) (hdim : dim = B * nv)
    (hfb : ∀ e ∈ f_b, SmoothE e) (hz : ∀ e ∈ f_z, SmoothE e)
    (hzt : ∀ e ∈ f_z_tilde, SmoothE e) :
    evalE env
        ((create_gradvars dim B nv bs f_b f_z f_z_tilde).d_var_d_eta.getD k (.const 0)) =
      (1 / (B : ℝ)) * ((List.range B).map (fun r =>
        deriv (fun t => ((rebar_E dim bs f_b f_z f_z_tilde).map
          (fun e => evalE (Function.update env (dim + (r * nv + k)) t) e ^ 2)).sum)
          (env (dim + (r * nv + k))))).sum ∧
    evalE env
        ((create_gradvars dim B nv bs f_b f_z f_z_tilde).d_var_d_temperature.getD k
          (.const 0)) =
      (1 / (B : ℝ)) * ((List.range B).map (fun r =>
        deriv (fun t => ((rebar_E dim bs f_b f_z f_z_tilde).map
          (fun e => evalE (Function.update env (2 * dim + (r * nv + k)) t) e ^ 2)).sum)
          (env (2 * dim + (r * nv + k))))).sum := by
  constructor
  · exact evalE_d_var_list env dim B nv bs f_b f_z f_z_tilde dim k hk hdim hfb hz hzt
  · exact evalE_d_var_list env dim B nv bs f_b f_z f_z_tilde (2 * dim) k hk hdim hfb hz hzt

/-- Witness for C6 in the scalar configuration of the C1 witness. -/
theorem variance_gradvars_are_reverse_mode_derivs_witness :
    evalE (fun _ => 0)
        ((create_gradvars 1 1 1 [1] [.const 5] [.var 0] [.const 0]).d_var_d_eta.getD 0
          (.const 0)) =
      (1 / ((1:ℕ) : ℝ)) * ((List.range 1).map (fun r =>
        deriv (fun t => ((rebar_E 1 [1] [.const 5] [.var 0] [.const 0]).map
          (fun e => evalE (Function.update (fun _ => (0:ℝ)) (1 + (r * 1 + 0)) t) e ^ 2)).sum)
          ((fun _ => (0:ℝ)) (1 + (r * 1 + 0))))).sum ∧
    evalE (fun _ => 0)
        ((create_gradvars 1 1 1 [1] [.const 5] [.var 0]
          [.const 0]).d_var_d_temperature.getD 0 (.const 0)) =
      (1 / ((1:ℕ) : ℝ)) * ((List.range 1).map (fun r =>
        deriv (fun t => ((rebar_E 1 [1] [.const 5] [.var 0] [.const 0]).map
          (fun e => evalE (Function.update (fun _ => (0:ℝ)) (2 * 1 + (r * 1 + 0)) t) e ^ 2)).sum)
          ((fun _ => (0:ℝ)) (2 * 1 + (r * 1 + 0))))).sum :=
  variance_gradvars_are_reverse_mode_derivs 1 1 1 [1] [.const 5] [.var 0] [.const 0]
    (fun _ => 0) 0 (by norm_num) (by norm_num)
    (by intro e he; rw [List.mem_singleton.mp he]; trivial)
    (by intro e he; rw [List.mem_singleton.mp he]; trivial)
    (by intro e he; rw [List.mem_singleton.mp he]; trivial)

/-! ## Pathwise differentiation of the relaxed evaluations (Claim C2, general
`eta`): derivative chains, Lipschitz bounds and dominated differentiation
under the integral sign. -/

lemma clip_of_le {x : ℝ} (h : x ≤ eps) : clip_by_value x eps 1 = eps := by
  unfold clip_by_value
  rw [max_eq_right h, min_eq_left (le_of_lt eps_lt_one)]

lemma continuous_sigmoid : Continuous sigmoid := by
  unfold sigmoid
  exact continuous_const.div (continuous_const.add (Real.continuous_exp.comp continuous_neg))
    fun x => one_add_exp_ne (-x)

lemma continuous_safe_clip : Continuous safe_clip := by
  unfold safe_clip clip_by_value
  exact (continuous_id.max continuous_const).min continuous_const

lemma continuous_safe_log_prob : Continuous safe_log_prob := by
  have h : safe_log_prob = fun x => Real.log (safe_clip x) := rfl
  rw [h]
  exact Real.continuousOn_log.comp_continuous continuous_safe_clip
    fun x => ne_of_gt (clip_pos x)

lemma hasDerivAt_u_prime (t : ℝ) :
    HasDerivAt u_prime (-(u_prime t * (1 - u_prime t))) t := by
  have h : HasDerivAt (fun s : ℝ => sigmoid (-s))
      (sigmoid (-t) * (1 - sigmoid (-t)) * (-1)) t :=
    (hasDerivAt_sigmoid (-t)).comp t (hasDerivAt_neg t)
  have hfun : u_prime = fun s : ℝ => sigmoid (-s) := rfl
  rw [hfun]
  convert h using 1
  simp only
  ring

lemma hasDerivAt_v_cond (b w t : ℝ) :
    HasDerivAt (fun s => v_cond s b w) (v_cond_dt t b w) t := by
  have hu := hasDerivAt_u_prime t
  have hA : HasDerivAt (fun s => w * (1 - u_prime s) + u_prime s)
      (w * (0 - -(u_prime t * (1 - u_prime t))) + -(u_prime t * (1 - u_prime t))) t :=
    (((hasDerivAt_const t (1:ℝ)).sub hu).const_mul w).add hu
  have hB : HasDerivAt (fun s => w * u_prime s)
      (w * -(u_prime t * (1 - u_prime t))) t := hu.const_mul w
  have h := (hA.const_mul b).add (hB.const_mul (1 - b))
  show HasDerivAt (fun s =>
    b * (w * (1 - u_prime s) + u_prime s) + (1 - b) * (w * u_prime s)) _ t
  convert h using 1
  unfold v_cond_dt
  ring

lemma v_cond_nonneg (la b w : ℝ) (hb : b = 0 ∨ b = 1) (hw0 : 0 ≤ w) :
    0 ≤ v_cond la b w := by
  have h1 := u_prime_pos la
  have h2 := u_prime_lt_one la
  rcases hb with rfl | rfl
  · rw [v_cond_zero]
    exact mul_nonneg hw0 (le_of_lt h1)
  · rw [v_cond_one]
    nlinarith

lemma v_cond_lt_one (la b w : ℝ) (hb : b = 0 ∨ b = 1) (hw0 : 0 ≤ w) (hw1 : w < 1) :
    v_cond la b w < 1 := by
  have h1 := u_prime_pos la
  have h2 := u_prime_lt_one la
  rcases hb with rfl | rfl
  · rw [v_cond_zero]
    nlinarith
  · rw [v_cond_one]
    nlinarith

/-- Off the kink `v = eps`, `t ↦ safe_log_prob (v_cond t b w)` differentiates
to `dlogclip`: locally constant below the clip, a plain log above it. -/
lemma hasDerivAt_slp_v (b w t : ℝ) (hb : b = 0 ∨ b = 1) (hw0 : 0 ≤ w) (hw1 : w < 1)
    (hne : v_cond t b w ≠ eps) :
    HasDerivAt (fun s => safe_log_prob (v_cond s b w))
      (dlogclip (v_cond t b w) (v_cond_dt t b w)) t := by
  have hv := hasDerivAt_v_cond b w t
  have hvc : ContinuousAt (fun s => v_cond s b w) t := hv.continuousAt
  have hv1 : v_cond t b w < 1 := v_cond_lt_one t b w hb hw0 hw1
  rcases lt_or_gt_of_ne hne with hlt | hgt
  · have hev : ∀ᶠ s in nhds t, v_cond s b w ∈ Iio eps := hvc (Iio_mem_nhds hlt)
    have heq : (fun s => safe_log_prob (v_cond s b w)) =ᶠ[nhds t]
        (fun _ => Real.log eps) := by
      filter_upwards [hev] with s hs
      unfold safe_log_prob
      rw [clip_of_le (le_of_lt hs)]
    rw [show dlogclip (v_cond t b w) (v_cond_dt t b w) = 0 from
      if_neg (not_lt.mpr (le_of_lt hlt))]
    exact (hasDerivAt_const t (Real.log eps)).congr_of_eventuallyEq heq
  · have hev : ∀ᶠ s in nhds t, v_cond s b w ∈ Ioo eps 1 := hvc (Ioo_mem_nhds hgt hv1)
    have heq : (fun s => safe_log_prob (v_cond s b w)) =ᶠ[nhds t]
        (fun s => Real.log (v_cond s b w)) := by
      filter_upwards [hev] with s hs
      unfold safe_log_prob
      rw [clip_of_mem (le_of_lt hs.1) (le_of_lt hs.2)]
    have hlog := hv.log (ne_of_gt (lt_trans eps_pos hgt))
    rw [show dlogclip (v_cond t b w) (v_cond_dt t b w)
        = v_cond_dt t b w / v_cond t b w from if_pos hgt]
    exact hlog.congr_of_eventuallyEq heq

/-- The same for the complementary noise `1 - v`. -/
lemma hasDerivAt_slp_one_sub_v (b w t : ℝ) (hb : b = 0 ∨ b = 1) (hw0 : 0 ≤ w)
    (hw1 : w < 1) (hne : 1 - v_cond t b w ≠ eps) :
    HasDerivAt (fun s => safe_log_prob (1 - v_cond s b w))
      (dlogclip (1 - v_cond t b w) (-v_cond_dt t b w)) t := by
  have hv := hasDerivAt_v_cond b w t
  have h1v : HasDerivAt (fun s => 1 - v_cond s b w) (0 - v_cond_dt t b w) t :=
    (hasDerivAt_const t (1:ℝ)).sub hv
  have hcont : ContinuousAt (fun s => 1 - v_cond s b w) t := h1v.continuousAt
  have hpos : 0 < 1 - v_cond t b w := by
    linarith [v_cond_lt_one t b w hb hw0 hw1]
  rcases lt_or_gt_of_ne hne with hlt | hgt
  · have hev : ∀ᶠ s in nhds t, (1 - v_cond s b w) ∈ Iio eps := hcont (Iio_mem_nhds hlt)
    have heq : (fun s => safe_log_prob (1 - v_cond s b w)) =ᶠ[nhds t]
        (fun _ => Real.log eps) := by
      filter_upwards [hev] with s hs
      unfold safe_log_prob
      rw [clip_of_le (le_of_lt hs)]
    rw [show dlogclip (1 - v_cond t b w) (-v_cond_dt t b w) = 0 from
      if_neg (not_lt.mpr (le_of_lt hlt))]
    exact (hasDerivAt_const t (Real.log eps)).congr_of_eventuallyEq heq
  · have hev : ∀ᶠ s in nhds t, (1 - v_cond s b w) ∈ Ioi eps := hcont (Ioi_mem_nhds hgt)
    have heq : (fun s => safe_log_prob (1 - v_cond s b w)) =ᶠ[nhds t]
        (fun s => Real.log (1 - v_cond s b w)) := by
      filter_upwards [hev] with s hs
      unfold safe_log_prob
      rw [clip_of_mem (le_of_lt hs) (by linarith [v_cond_nonneg s b w hb hw0])]
    have hlog := h1v.log (ne_of_gt hpos)
    have hval : dlogclip (1 - v_cond t b w) (-v_cond_dt t b w)
        = (0 - v_cond_dt t b w) / (1 - v_cond t b w) := by
      rw [show dlogclip (1 - v_cond t b w) (-v_cond_dt t b w)
          = -v_cond_dt t b w / (1 - v_cond t b w) from if_pos hgt]
      ring
    rw [hval]
    exact hlog.congr_of_eventuallyEq heq

/-- Off the two kinks, `t ↦ z_tilde_cond t b w` differentiates to
`z_tilde_cond_dt`. -/
lemma hasDerivAt_z_tilde_cond (b w t : ℝ) (hb : b = 0 ∨ b = 1) (hw0 : 0 ≤ w)
    (hw1 : w < 1) (hne1 : v_cond t b w ≠ eps) (hne2 : 1 - v_cond t b w ≠ eps) :
    HasDerivAt (fun s => z_tilde_cond s b w) (z_tilde_cond_dt t b w) t := by
  have h := ((hasDerivAt_id t).add (hasDerivAt_slp_v b w t hb hw0 hw1 hne1)).sub
    (hasDerivAt_slp_one_sub_v b w t hb hw0 hw1 hne2)
  show HasDerivAt (fun s =>
    s + safe_log_prob (v_cond s b w) - safe_log_prob (1 - v_cond s b w)) _ t
  exact h

/-- Off the two kinks, the full conditional relaxed-loss path differentiates to
`f_z_tilde_path_dt`. -/
lemma hasDerivAt_f_z_tilde_path (f fd : ℝ → ℝ) (hf : ∀ x, HasDerivAt f (fd x) x)
    (T b w t : ℝ) (hb : b = 0 ∨ b = 1) (hw0 : 0 ≤ w) (hw1 : w < 1)
    (hne1 : v_cond t b w ≠ eps) (hne2 : 1 - v_cond t b w ≠ eps) :
    HasDerivAt (fun s => f (sig_relax T s (z_tilde_cond s b w)))
      (f_z_tilde_path_dt fd T b w t) t := by
  have hz := hasDerivAt_z_tilde_cond b w t hb hw0 hw1 hne1 hne2
  have hinner : HasDerivAt (fun s => z_tilde_cond s b w / T + s)
      (z_tilde_cond_dt t b w / T + 1) t := (hz.div_const T).add (hasDerivAt_id t)
  have hsig : HasDerivAt (sigmoid ∘ fun s => z_tilde_cond s b w / T + s)
      (sigmoid (z_tilde_cond t b w / T + t) *
          (1 - sigmoid (z_tilde_cond t b w / T + t)) *
        (z_tilde_cond_dt t b w / T + 1)) t :=
    HasDerivAt.comp t (hasDerivAt_sigmoid _) hinner
  have hff : HasDerivAt (f ∘ (sigmoid ∘ fun s => z_tilde_cond s b w / T + s))
      (fd (sigmoid (z_tilde_cond t b w / T + t)) *
        (sigmoid (z_tilde_cond t b w / T + t) *
            (1 - sigmoid (z_tilde_cond t b w / T + t)) *
          (z_tilde_cond_dt t b w / T + 1))) t :=
    HasDerivAt.comp t (hf _) hsig
  show HasDerivAt (fun s => f (sigmoid (z_tilde_cond s b w / T + s)))
    (f_z_tilde_path_dt fd T b w t) t
  have hval : f_z_tilde_path_dt fd T b w t
      = fd (sigmoid (z_tilde_cond t b w / T + t)) *
          (sigmoid (z_tilde_cond t b w / T + t) *
              (1 - sigmoid (z_tilde_cond t b w / T + t)) *
            (z_tilde_cond_dt t b w / T + 1)) := by
    unfold f_z_tilde_path_dt sig_relax
    ring
  rw [hval]
  exact hff

/-- The unconditional relaxed-loss path differentiates to `f_z_path_dt`
everywhere (the additive noise needs no clipping analysis). -/
lemma hasDerivAt_f_z_path (f fd : ℝ → ℝ) (hf : ∀ x, HasDerivAt f (fd x) x)
    (T u t : ℝ) :
    HasDerivAt (fun s => f (sig_relax T s (z_sample s u)))
      (f_z_path_dt fd T u t) t := by
  have hz : HasDerivAt (fun s => z_sample s u) 1 t := by
    show HasDerivAt (fun s => s + safe_log_prob u - safe_log_prob (1 - u)) 1 t
    have h := ((hasDerivAt_id t).add_const (safe_log_prob u)).sub_const
      (safe_log_prob (1 - u))
    simpa using h
  have hinner : HasDerivAt (fun s => z_sample s u / T + s) ((1:ℝ) / T + 1) t := by
    have h := (hz.div_const T).add (hasDerivAt_id t)
    simpa using h
  have hsig : HasDerivAt (sigmoid ∘ fun s => z_sample s u / T + s)
      (sigmoid (z_sample t u / T + t) * (1 - sigmoid (z_sample t u / T + t)) *
        ((1:ℝ) / T + 1)) t :=
    HasDerivAt.comp t (hasDerivAt_sigmoid _) hinner
  have hff : HasDerivAt (f ∘ (sigmoid ∘ fun s => z_sample s u / T + s))
      (fd (sigmoid (z_sample t u / T + t)) *
        (sigmoid (z_sample t u / T + t) * (1 - sigmoid (z_sample t u / T + t)) *
          ((1:ℝ) / T + 1))) t :=
    HasDerivAt.comp t (hf _) hsig
  show HasDerivAt (fun s => f (sigmoid (z_sample s u / T + s)))
    (f_z_path_dt fd T u t) t
  have hval : f_z_path_dt fd T u t
      = fd (sigmoid (z_sample t u / T + t)) *
          (sigmoid (z_sample t u / T + t) * (1 - sigmoid (z_sample t u / T + t)) *
            ((1:ℝ) / T + 1)) := by
    unfold f_z_path_dt sig_relax
    ring
  rw [hval]
  exact hff

/-! ### Global Lipschitz bounds for the dominated-differentiation argument -/

/-- Mean-value bound: a function with derivative bounded by `K` moves at most
`K`-proportionally. -/
lemma abs_sub_of_hasDerivAt_bound (f fd : ℝ → ℝ) (K : ℝ)
    (hf : ∀ x, HasDerivAt f (fd x) x) (hK : ∀ x, |fd x| ≤ K) (x y : ℝ) :
    |f x - f y| ≤ K * |x - y| := by
  have h := convex_univ.norm_image_sub_le_of_norm_hasDerivWithin_le
    (fun z _ => (hf z).hasDerivWithinAt)
    (fun z _ => by rw [Real.norm_eq_abs]; exact hK z)
    (Set.mem_univ y) (Set.mem_univ x)
  simpa [Real.norm_eq_abs] using h

lemma sigmoid_deriv_le (x : ℝ) : sigmoid x * (1 - sigmoid x) ≤ 4⁻¹ := by
  nlinarith [sq_nonneg (sigmoid x - 2⁻¹)]

lemma sigmoid_abs_sub (x y : ℝ) : |sigmoid x - sigmoid y| ≤ 4⁻¹ * |x - y| := by
  apply abs_sub_of_hasDerivAt_bound sigmoid
    (fun z => sigmoid z * (1 - sigmoid z)) 4⁻¹ hasDerivAt_sigmoid
  intro z
  rw [abs_of_nonneg (by nlinarith [sigmoid_pos z, sigmoid_lt_one z])]
  exact sigmoid_deriv_le z

lemma u_prime_abs_sub (t₁ t₂ : ℝ) : |u_prime t₁ - u_prime t₂| ≤ 4⁻¹ * |t₁ - t₂| := by
  have h := sigmoid_abs_sub (-t₁) (-t₂)
  have h2 : |(-t₁) - (-t₂)| = |t₁ - t₂| := by
    rw [show (-t₁) - (-t₂) = -(t₁ - t₂) by ring, abs_neg]
  rw [h2] at h
  exact h

lemma clip_abs_sub (x y : ℝ) :
    |clip_by_value x eps 1 - clip_by_value y eps 1| ≤ |x - y| := by
  unfold clip_by_value
  calc |min (max x eps) 1 - min (max y eps) 1|
      ≤ max |max x eps - max y eps| |(1:ℝ) - 1| := abs_min_sub_min_le_max _ _ _ _
    _ = |max x eps - max y eps| := by simp
    _ ≤ max |x - y| |eps - eps| := abs_max_sub_max_le_max _ _ _ _
    _ = |x - y| := by simp

lemma log_clip_abs_sub {a b : ℝ} (ha1 : eps ≤ a) (hb1 : eps ≤ b) :
    |Real.log a - Real.log b| ≤ eps⁻¹ * |a - b| := by
  wlog hab : b ≤ a generalizing a b
  · have h := this hb1 ha1 (le_of_not_le hab)
    calc |Real.log a - Real.log b| = |Real.log b - Real.log a| := abs_sub_comm _ _
      _ ≤ eps⁻¹ * |b - a| := h
      _ = eps⁻¹ * |a - b| := by rw [abs_sub_comm]
  have hb0 : 0 < b := lt_of_lt_of_le eps_pos hb1
  have ha0 : 0 < a := lt_of_lt_of_le eps_pos ha1
  have hmono : Real.log b ≤ Real.log a := Real.log_le_log hb0 hab
  rw [abs_of_nonneg (by linarith), abs_of_nonneg (by linarith)]
  have h1 : Real.log a - Real.log b = Real.log (a / b) :=
    (Real.log_div (ne_of_gt ha0) (ne_of_gt hb0)).symm
  rw [h1]
  have h2 : Real.log (a / b) ≤ a / b - 1 := Real.log_le_sub_one_of_pos (div_pos ha0 hb0)
  have h3 : a / b - 1 = (a - b) / b := by field_simp
  have h4 : (a - b) / b ≤ (a - b) * eps⁻¹ := by
    rw [div_eq_mul_inv]
    apply mul_le_mul_of_nonneg_left _ (by linarith)
    exact inv_le_inv_of_le eps_pos hb1
  nlinarith

lemma safe_log_prob_abs_sub (x y : ℝ) :
    |safe_log_prob x - safe_log_prob y| ≤ eps⁻¹ * |x - y| := by
  unfold safe_log_prob
  calc |Real.log (clip_by_value x eps 1) - Real.log (clip_by_value y eps 1)|
      ≤ eps⁻¹ * |clip_by_value x eps 1 - clip_by_value y eps 1| :=
        log_clip_abs_sub (clip_ge_eps x) (clip_ge_eps y)
    _ ≤ eps⁻¹ * |x - y| := by
        apply mul_le_mul_of_nonneg_left (clip_abs_sub x y)
        exact le_of_lt (inv_pos.mpr eps_pos)

lemma v_cond_abs_sub (b w : ℝ) (hb : b = 0 ∨ b = 1) (hw0 : 0 ≤ w) (hw1 : w ≤ 1)
    (t₁ t₂ : ℝ) : |v_cond t₁ b w - v_cond t₂ b w| ≤ 4⁻¹ * |t₁ - t₂| := by
  have hu := u_prime_abs_sub t₁ t₂
  rcases hb with rfl | rfl
  · rw [v_cond_zero, v_cond_zero, ← mul_sub, abs_mul, abs_of_nonneg hw0]
    calc w * |u_prime t₁ - u_prime t₂| ≤ 1 * (4⁻¹ * |t₁ - t₂|) :=
          mul_le_mul hw1 hu (abs_nonneg _) zero_le_one
      _ = 4⁻¹ * |t₁ - t₂| := one_mul _
  · rw [v_cond_one, v_cond_one]
    have he : (w * (1 - u_prime t₁) + u_prime t₁) - (w * (1 - u_prime t₂) + u_prime t₂)
        = (1 - w) * (u_prime t₁ - u_prime t₂) := by ring
    rw [he, abs_mul, abs_of_nonneg (by linarith)]
    calc (1 - w) * |u_prime t₁ - u_prime t₂| ≤ 1 * (4⁻¹ * |t₁ - t₂|) :=
          mul_le_mul (by linarith) hu (abs_nonneg _) zero_le_one
      _ = 4⁻¹ * |t₁ - t₂| := one_mul _

lemma abs_add_sub_sub (a b c : ℝ) : |a + b - c| ≤ |a| + |b| + |c| := by
  calc |a + b - c| = |a + (b + -c)| := by ring_nf
    _ ≤ |a| + |b + -c| := abs_add _ _
    _ ≤ |a| + (|b| + |(-c)|) := by linarith [abs_add b (-c)]
    _ = |a| + |b| + |c| := by rw [abs_neg]; ring

lemma z_tilde_cond_abs_sub (b w : ℝ) (hb : b = 0 ∨ b = 1) (hw0 : 0 ≤ w) (hw1 : w ≤ 1)
    (t₁ t₂ : ℝ) :
    |z_tilde_cond t₁ b w - z_tilde_cond t₂ b w|
      ≤ (1 + 2 * eps⁻¹ * 4⁻¹) * |t₁ - t₂| := by
  have hv := v_cond_abs_sub b w hb hw0 hw1 t₁ t₂
  have hinv : (0:ℝ) ≤ eps⁻¹ := le_of_lt (inv_pos.mpr eps_pos)
  have h1 : |safe_log_prob (v_cond t₁ b w) - safe_log_prob (v_cond t₂ b w)|
      ≤ eps⁻¹ * (4⁻¹ * |t₁ - t₂|) := by
    calc |safe_log_prob (v_cond t₁ b w) - safe_log_prob (v_cond t₂ b w)|
        ≤ eps⁻¹ * |v_cond t₁ b w - v_cond t₂ b w| := safe_log_prob_abs_sub _ _
      _ ≤ eps⁻¹ * (4⁻¹ * |t₁ - t₂|) := mul_le_mul_of_nonneg_left hv hinv
  have h2 : |safe_log_prob (1 - v_cond t₁ b w) - safe_log_prob (1 - v_cond t₂ b w)|
      ≤ eps⁻¹ * (4⁻¹ * |t₁ - t₂|) := by
    have h3 : |(1 - v_cond t₁ b w) - (1 - v_cond t₂ b w)|
        = |v_cond t₁ b w - v_cond t₂ b w| := by
      rw [show (1 - v_cond t₁ b w) - (1 - v_cond t₂ b w)
          = -(v_cond t₁ b w - v_cond t₂ b w) by ring, abs_neg]
    calc |safe_log_prob (1 - v_cond t₁ b w) - safe_log_prob (1 - v_cond t₂ b w)|
        ≤ eps⁻¹ * |(1 - v_cond t₁ b w) - (1 - v_cond t₂ b w)| := safe_log_prob_abs_sub _ _
      _ = eps⁻¹ * |v_cond t₁ b w - v_cond t₂ b w| := by rw [h3]
      _ ≤ eps⁻¹ * (4⁻¹ * |t₁ - t₂|) := mul_le_mul_of_nonneg_left hv hinv
  have htri : |z_tilde_cond t₁ b w - z_tilde_cond t₂ b w|
      ≤ |t₁ - t₂| + |safe_log_prob (v_cond t₁ b w) - safe_log_prob (v_cond t₂ b w)|
        + |safe_log_prob (1 - v_cond t₁ b w) - safe_log_prob (1 - v_cond t₂ b w)| := by
    unfold z_tilde_cond
    have he : t₁ + safe_log_prob (v_cond t₁ b w) - safe_log_prob (1 - v_cond t₁ b w)
        - (t₂ + safe_log_prob (v_cond t₂ b w) - safe_log_prob (1 - v_cond t₂ b w))
        = (t₁ - t₂) + (safe_log_prob (v_cond t₁ b w) - safe_log_prob (v_cond t₂ b w))
          - (safe_log_prob (1 - v_cond t₁ b w) - safe_log_prob (1 - v_cond t₂ b w)) := by
      ring
    rw [he]
    exact abs_add_sub_sub _ _ _
  linarith

lemma inner_arg_abs_sub (z₁ z₂ T t₁ t₂ : ℝ) (hT : 0 < T) :
    |(z₁ / T + t₁) - (z₂ / T + t₂)| ≤ |z₁ - z₂| / T + |t₁ - t₂| := by
  have he : (z₁ / T + t₁) - (z₂ / T + t₂) = (z₁ - z₂) / T + (t₁ - t₂) := by ring
  rw [he]
  calc |(z₁ - z₂) / T + (t₁ - t₂)| ≤ |(z₁ - z₂) / T| + |t₁ - t₂| := abs_add _ _
    _ = |z₁ - z₂| / T + |t₁ - t₂| := by rw [abs_div, abs_of_pos hT]

/-- Lipschitz constant of `t ↦ f(sig(z_tilde(t,b,w)/T + t))`, uniform in the
noise `w`. -/
lemma f_z_tilde_path_abs_sub (f fd : ℝ → ℝ) (K T : ℝ)
    (hf : ∀ x, HasDerivAt f (fd x) x) (hK : ∀ x, |fd x| ≤ K) (hT : 0 < T)
    (b w : ℝ) (hb : b = 0 ∨ b = 1) (hw0 : 0 ≤ w) (hw1 : w ≤ 1) (t₁ t₂ : ℝ) :
    |f (sig_relax T t₁ (z_tilde_cond t₁ b w)) - f (sig_relax T t₂ (z_tilde_cond t₂ b w))|
      ≤ K * (4⁻¹ * ((1 + 2 * eps⁻¹ * 4⁻¹) / T + 1)) * |t₁ - t₂| := by
  have hK0 : 0 ≤ K := le_trans (abs_nonneg _) (hK 0)
  have h1 := abs_sub_of_hasDerivAt_bound f fd K hf hK
    (sig_relax T t₁ (z_tilde_cond t₁ b w)) (sig_relax T t₂ (z_tilde_cond t₂ b w))
  have h2 : |sig_relax T t₁ (z_tilde_cond t₁ b w) - sig_relax T t₂ (z_tilde_cond t₂ b w)|
      ≤ 4⁻¹ * |(z_tilde_cond t₁ b w / T + t₁) - (z_tilde_cond t₂ b w / T + t₂)| := by
    unfold sig_relax
    exact sigmoid_abs_sub _ _
  have h3 := inner_arg_abs_sub (z_tilde_cond t₁ b w) (z_tilde_cond t₂ b w) T t₁ t₂ hT
  have h4 := z_tilde_cond_abs_sub b w hb hw0 hw1 t₁ t₂
  have h5 : |z_tilde_cond t₁ b w - z_tilde_cond t₂ b w| / T
      ≤ (1 + 2 * eps⁻¹ * 4⁻¹) * |t₁ - t₂| / T :=
    div_le_div_of_nonneg_right h4 hT.le
  calc |f (sig_relax T t₁ (z_tilde_cond t₁ b w)) - f (sig_relax T t₂ (z_tilde_cond t₂ b w))|
      ≤ K * |sig_relax T t₁ (z_tilde_cond t₁ b w) - sig_relax T t₂ (z_tilde_cond t₂ b w)| :=
        h1
    _ ≤ K * (4⁻¹ * ((1 + 2 * eps⁻¹ * 4⁻¹) * |t₁ - t₂| / T + |t₁ - t₂|)) := by
        apply mul_le_mul_of_nonneg_left _ hK0
        calc |sig_relax T t₁ (z_tilde_cond t₁ b w) - sig_relax T t₂ (z_tilde_cond t₂ b w)|
            ≤ 4⁻¹ * |(z_tilde_cond t₁ b w / T + t₁) - (z_tilde_cond t₂ b w / T + t₂)| := h2
          _ ≤ 4⁻¹ * ((1 + 2 * eps⁻¹ * 4⁻¹) * |t₁ - t₂| / T + |t₁ - t₂|) := by
              apply mul_le_mul_of_nonneg_left _ (by norm_num)
              linarith
    _ = K * (4⁻¹ * ((1 + 2 * eps⁻¹ * 4⁻¹) / T + 1)) * |t₁ - t₂| := by
        field_simp
        ring

/-- Lipschitz constant of `t ↦ f(sig(z(t,u)/T + t))`, uniform in the noise
`u`. -/
lemma f_z_path_abs_sub (f fd : ℝ → ℝ) (K T : ℝ)
    (hf : ∀ x, HasDerivAt f (fd x) x) (hK : ∀ x, |fd x| ≤ K) (hT : 0 < T)
    (u t₁ t₂ : ℝ) :
    |f (sig_relax T t₁ (z_sample t₁ u)) - f (sig_relax T t₂ (z_sample t₂ u))|
      ≤ K * (4⁻¹ * (1 / T + 1)) * |t₁ - t₂| := by
  have hK0 : 0 ≤ K := le_trans (abs_nonneg _) (hK 0)
  have h1 := abs_sub_of_hasDerivAt_bound f fd K hf hK
    (sig_relax T t₁ (z_sample t₁ u)) (sig_relax T t₂ (z_sample t₂ u))
  have h2 : |sig_relax T t₁ (z_sample t₁ u) - sig_relax T t₂ (z_sample t₂ u)|
      ≤ 4⁻¹ * |(z_sample t₁ u / T + t₁) - (z_sample t₂ u / T + t₂)| := by
    unfold sig_relax
    exact sigmoid_abs_sub _ _
  have h3 := inner_arg_abs_sub (z_sample t₁ u) (z_sample t₂ u) T t₁ t₂ hT
  have h4 : |z_sample t₁ u - z_sample t₂ u| = |t₁ - t₂| := by
    unfold z_sample
    congr 1
    ring
  have h5 : |z_sample t₁ u - z_sample t₂ u| / T ≤ 1 * |t₁ - t₂| / T := by
    rw [h4, one_mul]
  calc |f (sig_relax T t₁ (z_sample t₁ u)) - f (sig_relax T t₂ (z_sample t₂ u))|
      ≤ K * |sig_relax T t₁ (z_sample t₁ u) - sig_relax T t₂ (z_sample t₂ u)| := h1
    _ ≤ K * (4⁻¹ * (1 * |t₁ - t₂| / T + |t₁ - t₂|)) := by
        apply mul_le_mul_of_nonneg_left _ hK0
        calc |sig_relax T t₁ (z_sample t₁ u) - sig_relax T t₂ (z_sample t₂ u)|
            ≤ 4⁻¹ * |(z_sample t₁ u / T + t₁) - (z_sample t₂ u / T + t₂)| := h2
          _ ≤ 4⁻¹ * (1 * |t₁ - t₂| / T + |t₁ - t₂|) := by
              apply mul_le_mul_of_nonneg_left _ (by norm_num)
              linarith
    _ = K * (4⁻¹ * (1 / T + 1)) * |t₁ - t₂| := by
        field_simp
        ring

/-! ### Measurability in the noise variable -/

lemma continuous_v_cond_w (la b : ℝ) : Continuous (fun w => v_cond la b w) := by
  unfold v_cond
  fun_prop

lemma continuous_z_tilde_cond_w (la b : ℝ) :
    Continuous (fun w => z_tilde_cond la b w) := by
  unfold z_tilde_cond
  exact (continuous_const.add
      (continuous_safe_log_prob.comp (continuous_v_cond_w la b))).sub
    (continuous_safe_log_prob.comp (continuous_const.sub (continuous_v_cond_w la b)))

lemma continuous_sig_z_tilde_w (T la b : ℝ) :
    Continuous (fun w => sig_relax T la (z_tilde_cond la b w)) := by
  unfold sig_relax
  exact continuous_sigmoid.comp
    (((continuous_z_tilde_cond_w la b).div_const T).add continuous_const)

lemma continuous_z_sample_u (la : ℝ) : Continuous (fun u => z_sample la u) := by
  unfold z_sample
  exact (continuous_const.add (continuous_safe_log_prob.comp continuous_id)).sub
    (continuous_safe_log_prob.comp (continuous_const.sub continuous_id))

lemma continuous_sig_z_u (T la : ℝ) :
    Continuous (fun u => sig_relax T la (z_sample la u)) := by
  unfold sig_relax
  exact continuous_sigmoid.comp
    (((continuous_z_sample_u la).div_const T).add continuous_const)

lemma measurable_fd_of_hasDerivAt (f fd : ℝ → ℝ) (hf : ∀ x, HasDerivAt f (fd x) x) :
    Measurable fd := by
  have h : fd = deriv f := funext fun x => ((hf x).deriv).symm
  rw [h]
  exact measurable_deriv f

lemma measurable_f_z_tilde_path_dt (f fd : ℝ → ℝ) (hf : ∀ x, HasDerivAt f (fd x) x)
    (T la b : ℝ) : Measurable (fun w => f_z_tilde_path_dt fd T b w la) := by
  have hfd := measurable_fd_of_hasDerivAt f fd hf
  have hvc := continuous_v_cond_w la b
  have hvdt : Continuous (fun w => v_cond_dt la b w) := by
    unfold v_cond_dt
    fun_prop
  have hsr := (continuous_sig_z_tilde_w T la b).measurable
  have hd1 : Measurable (fun w => dlogclip (v_cond la b w) (v_cond_dt la b w)) := by
    unfold dlogclip
    exact Measurable.ite (measurableSet_lt measurable_const hvc.measurable)
      (hvdt.measurable.div hvc.measurable) measurable_const
  have hd2 : Measurable (fun w => dlogclip (1 - v_cond la b w) (-v_cond_dt la b w)) := by
    unfold dlogclip
    exact Measurable.ite
      (measurableSet_lt measurable_const (continuous_const.sub hvc).measurable)
      ((hvdt.neg.measurable).div (continuous_const.sub hvc).measurable)
      measurable_const
  have hdt : Measurable (fun w => z_tilde_cond_dt la b w) := by
    unfold z_tilde_cond_dt
    exact (measurable_const.add hd1).sub hd2
  unfold f_z_tilde_path_dt
  exact (((hfd.comp hsr).mul (hsr.mul (measurable_const.sub hsr))).mul
    ((hdt.div_const T).add measurable_const))

lemma measurable_f_z_path_dt (f fd : ℝ → ℝ) (hf : ∀ x, HasDerivAt f (fd x) x)
    (T la : ℝ) : Measurable (fun u => f_z_path_dt fd T u la) := by
  have hfd := measurable_fd_of_hasDerivAt f fd hf
  have hsr := (continuous_sig_z_u T la).measurable
  unfold f_z_path_dt
  exact ((hfd.comp hsr).mul (hsr.mul (measurable_const.sub hsr))).mul measurable_const

/-! ### The clip kinks are hit on a null set of noise draws -/

lemma v_cond_inj (la b : ℝ) (hb : b = 0 ∨ b = 1) {w₁ w₂ : ℝ}
    (h : v_cond la b w₁ = v_cond la b w₂) : w₁ = w₂ := by
  have h1 := u_prime_pos la
  have h2 := u_prime_lt_one la
  rcases hb with rfl | rfl
  · rw [v_cond_zero, v_cond_zero] at h
    exact mul_right_cancel₀ (ne_of_gt h1) h
  · rw [v_cond_one, v_cond_one] at h
    have h3 : w₁ * (1 - u_prime la) = w₂ * (1 - u_prime la) := by linarith
    exact mul_right_cancel₀ (by linarith : (1:ℝ) - u_prime la ≠ 0) h3

lemma ae_good_w (la b : ℝ) (hb : b = 0 ∨ b = 1) :
    ∀ᵐ w ∂(MeasureTheory.volume.restrict (Ioo (0:ℝ) 1)),
      (0 < w ∧ w < 1) ∧ v_cond la b w ≠ eps ∧ 1 - v_cond la b w ≠ eps := by
  have hmem : ∀ᵐ w ∂(MeasureTheory.volume.restrict (Ioo (0:ℝ) 1)),
      w ∈ Ioo (0:ℝ) 1 := MeasureTheory.ae_restrict_mem measurableSet_Ioo
  have hsub1 : {w : ℝ | v_cond la b w = eps}.Subsingleton := by
    intro w₁ h₁ w₂ h₂
    exact v_cond_inj la b hb (h₁.trans h₂.symm)
  have hsub2 : {w : ℝ | 1 - v_cond la b w = eps}.Subsingleton := by
    intro w₁ h₁ w₂ h₂
    apply v_cond_inj la b hb
    have e₁ : 1 - v_cond la b w₁ = eps := h₁
    have e₂ : 1 - v_cond la b w₂ = eps := h₂
    linarith
  have hae1 : ∀ᵐ w ∂(MeasureTheory.volume : MeasureTheory.Measure ℝ),
      v_cond la b w ≠ eps := by
    have h := MeasureTheory.measure_zero_iff_ae_nmem.mp
      (hsub1.measure_zero (MeasureTheory.volume : MeasureTheory.Measure ℝ))
    filter_upwards [h] with w hw
    exact hw
  have hae2 : ∀ᵐ w ∂(MeasureTheory.volume : MeasureTheory.Measure ℝ),
      1 - v_cond la b w ≠ eps := by
    have h := MeasureTheory.measure_zero_iff_ae_nmem.mp
      (hsub2.measure_zero (MeasureTheory.volume : MeasureTheory.Measure ℝ))
    filter_upwards [h] with w hw
    exact hw
  filter_upwards [hmem, MeasureTheory.ae_restrict_of_ae hae1,
    MeasureTheory.ae_restrict_of_ae hae2] with w h1 h2 h3
  exact ⟨⟨h1.1, h1.2⟩, h2, h3⟩

/-! ### Differentiation under the integral sign -/

open scoped NNReal in
/-- The conditional correction integral `A_b(t) = ∫ f(sig(z_tilde(t,b,w)/T+t)) dw`
is integrably differentiable with derivative `D_b(t) = ∫ f_z_tilde_path_dt dw`. -/
lemma hasDerivAt_A (f fd : ℝ → ℝ) (K T la b : ℝ)
    (hf : ∀ x, HasDerivAt f (fd x) x) (hK : ∀ x, |fd x| ≤ K) (hT : 0 < T)
    (hb : b = 0 ∨ b = 1) :
    MeasureTheory.Integrable (fun w => f_z_tilde_path_dt fd T b w la)
      (MeasureTheory.volume.restrict (Ioo (0:ℝ) 1)) ∧
    HasDerivAt (fun t => ∫ w in Ioo (0:ℝ) 1, f (sig_relax T t (z_tilde_cond t b w)))
      (∫ w in Ioo (0:ℝ) 1, f_z_tilde_path_dt fd T b w la) la := by
  have hfc : Continuous f := continuous_iff_continuousAt.mpr
    fun x => (hf x).differentiableAt.continuousAt
  have hlip : ∀ᵐ w ∂(MeasureTheory.volume.restrict (Ioo (0:ℝ) 1)),
      LipschitzOnWith (Real.nnabs (K * (4⁻¹ * ((1 + 2 * eps⁻¹ * 4⁻¹) / T + 1))))
        (fun t => f (sig_relax T t (z_tilde_cond t b w))) (Metric.ball la 1) := by
    filter_upwards [MeasureTheory.ae_restrict_mem measurableSet_Ioo] with w hw
    rw [lipschitzOnWith_iff_dist_le_mul]
    intro t₁ _ t₂ _
    rw [Real.dist_eq, Real.dist_eq, Real.coe_nnabs]
    calc |f (sig_relax T t₁ (z_tilde_cond t₁ b w)) -
            f (sig_relax T t₂ (z_tilde_cond t₂ b w))|
        ≤ K * (4⁻¹ * ((1 + 2 * eps⁻¹ * 4⁻¹) / T + 1)) * |t₁ - t₂| :=
          f_z_tilde_path_abs_sub f fd K T hf hK hT b w hb hw.1.le hw.2.le t₁ t₂
      _ ≤ |K * (4⁻¹ * ((1 + 2 * eps⁻¹ * 4⁻¹) / T + 1))| * |t₁ - t₂| :=
          mul_le_mul_of_nonneg_right (le_abs_self _) (abs_nonneg _)
  have hdiff : ∀ᵐ w ∂(MeasureTheory.volume.restrict (Ioo (0:ℝ) 1)),
      HasDerivAt (fun t => f (sig_relax T t (z_tilde_cond t b w)))
        (f_z_tilde_path_dt fd T b w la) la := by
    filter_upwards [ae_good_w la b hb] with w hw
    exact hasDerivAt_f_z_tilde_path f fd hf T b w la hb hw.1.1.le hw.1.2 hw.2.1 hw.2.2
  refine hasDerivAt_integral_of_dominated_loc_of_lip one_pos
    (Filter.Eventually.of_forall fun t =>
      (hfc.comp (continuous_sig_z_tilde_w T t b)).aestronglyMeasurable)
    (((hfc.comp (continuous_sig_z_tilde_w T la b)).integrableOn_Icc).mono_set
      Ioo_subset_Icc_self)
    ((measurable_f_z_tilde_path_dt f fd hf T la b).aestronglyMeasurable)
    hlip ?_ hdiff
  rw [MeasureTheory.integrable_const_iff]
  right
  simp [Real.volume_Ioo]

/-- The unconditional relaxed integral `N(t) = ∫ f(sig(z(t,u)/T+t)) du` is
integrably differentiable with derivative `∫ f_z_path_dt du`. -/
lemma hasDerivAt_N (f fd : ℝ → ℝ) (K T la : ℝ)
    (hf : ∀ x, HasDerivAt f (fd x) x) (hK : ∀ x, |fd x| ≤ K) (hT : 0 < T) :
    MeasureTheory.Integrable (fun u => f_z_path_dt fd T u la)
      (MeasureTheory.volume.restrict (Ioo (0:ℝ) 1)) ∧
    HasDerivAt (fun t => ∫ u in Ioo (0:ℝ) 1, f (sig_relax T t (z_sample t u)))
      (∫ u in Ioo (0:ℝ) 1, f_z_path_dt fd T u la) la := by
  have hfc : Continuous f := continuous_iff_continuousAt.mpr
    fun x => (hf x).differentiableAt.continuousAt
  have hlip : ∀ᵐ u ∂(MeasureTheory.volume.restrict (Ioo (0:ℝ) 1)),
      LipschitzOnWith (Real.nnabs (K * (4⁻¹ * (1 / T + 1))))
        (fun t => f (sig_relax T t (z_sample t u))) (Metric.ball la 1) := by
    apply Filter.Eventually.of_forall
    intro u
    rw [lipschitzOnWith_iff_dist_le_mul]
    intro t₁ _ t₂ _
    rw [Real.dist_eq, Real.dist_eq, Real.coe_nnabs]
    calc |f (sig_relax T t₁ (z_sample t₁ u)) - f (sig_relax T t₂ (z_sample t₂ u))|
        ≤ K * (4⁻¹ * (1 / T + 1)) * |t₁ - t₂| :=
          f_z_path_abs_sub f fd K T hf hK hT u t₁ t₂
      _ ≤ |K * (4⁻¹ * (1 / T + 1))| * |t₁ - t₂| :=
          mul_le_mul_of_nonneg_right (le_abs_self _) (abs_nonneg _)
  have hdiff : ∀ᵐ u ∂(MeasureTheory.volume.restrict (Ioo (0:ℝ) 1)),
      HasDerivAt (fun t => f (sig_relax T t (z_sample t u)))
        (f_z_path_dt fd T u la) la :=
    Filter.Eventually.of_forall fun u => hasDerivAt_f_z_path f fd hf T u la
  refine hasDerivAt_integral_of_dominated_loc_of_lip one_pos
    (Filter.Eventually.of_forall fun t =>
      (hfc.comp (continuous_sig_z_u T t)).aestronglyMeasurable)
    (((hfc.comp (continuous_sig_z_u T la)).integrableOn_Icc).mono_set
      Ioo_subset_Icc_self)
    ((measurable_f_z_path_dt f fd hf T la).aestronglyMeasurable)
    hlip ?_ hdiff
  rw [MeasureTheory.integrable_const_iff]
  right
  simp [Real.volume_Ioo]

/-! ### Change of variables: the conditional coupling preserves the relaxed
marginal -/

lemma subst_scale (g : ℝ → ℝ) (p : ℝ) (hp : 0 < p) :
    p * (∫ w in Ioo (0:ℝ) 1, g (w * p)) = ∫ x in Ioo (0:ℝ) p, g x := by
  have h1 : (∫ w in Ioo (0:ℝ) 1, g (w * p)) = ∫ w in (0:ℝ)..1, g (w * p) := by
    rw [intervalIntegral.integral_of_le zero_le_one,
      MeasureTheory.integral_Ioc_eq_integral_Ioo]
  have h2 : (∫ x in (0:ℝ)..1, g (x * p)) = p⁻¹ • ∫ x in (0:ℝ) * p..1 * p, g x :=
    intervalIntegral.integral_comp_mul_right g (ne_of_gt hp)
  have h3 : (∫ x in Ioo (0:ℝ) p, g x) = ∫ x in (0:ℝ)..p, g x := by
    rw [intervalIntegral.integral_of_le (le_of_lt hp),
      MeasureTheory.integral_Ioc_eq_integral_Ioo]
  rw [h1, h2, h3, show (0:ℝ) * p = 0 by ring, show (1:ℝ) * p = p by ring, smul_eq_mul]
  field_simp

lemma subst_affine (g : ℝ → ℝ) (p : ℝ) (hp : p < 1) :
    (1 - p) * (∫ w in Ioo (0:ℝ) 1, g (w * (1 - p) + p)) = ∫ x in Ioo p 1, g x := by
  have hne : (1:ℝ) - p ≠ 0 := by linarith
  have h0 : (∫ w in Ioo (0:ℝ) 1, g (w * (1 - p) + p))
      = ∫ w in Ioo (0:ℝ) 1, g ((1 - p) * w + p) := by
    refine MeasureTheory.setIntegral_congr_fun measurableSet_Ioo fun w _ => ?_
    rw [mul_comm]
  have h1 : (∫ w in Ioo (0:ℝ) 1, g ((1 - p) * w + p))
      = ∫ w in (0:ℝ)..1, g ((1 - p) * w + p) := by
    rw [intervalIntegral.integral_of_le zero_le_one,
      MeasureTheory.integral_Ioc_eq_integral_Ioo]
  have h2 : (∫ x in (0:ℝ)..1, g ((1 - p) * x + p))
      = (1 - p)⁻¹ • ∫ x in (1 - p) * 0 + p..(1 - p) * 1 + p, g x :=
    intervalIntegral.integral_comp_mul_add g hne p
  have h3 : (∫ x in Ioo p 1, g x) = ∫ x in p..1, g x := by
    rw [intervalIntegral.integral_of_le (le_of_lt hp),
      MeasureTheory.integral_Ioc_eq_integral_Ioo]
  rw [h0, h1, h2, h3, show (1 - p) * 0 + p = p by ring,
    show (1 - p) * 1 + p = 1 by ring, smul_eq_mul]
  field_simp

lemma Ioo_zero_one_split (c : ℝ) (h0 : 0 < c) (h1 : c < 1) :
    Ioo (0:ℝ) 1 = Ioc 0 c ∪ Ioo c 1 := by
  ext x
  simp only [mem_Ioo, mem_Ioc, mem_union]
  constructor
  · rintro ⟨hx1, hx2⟩
    rcases le_or_lt x c with h | h
    · exact Or.inl ⟨hx1, h⟩
    · exact Or.inr ⟨h, hx2⟩
  · rintro (⟨hx1, hx2⟩ | ⟨hx1, hx2⟩) <;> constructor <;> linarith

lemma setIntegral_Ioo01_split (g : ℝ → ℝ) (c : ℝ) (h0 : 0 < c) (h1 : c < 1)
    (hga : MeasureTheory.IntegrableOn g (Ioc (0:ℝ) c))
    (hgb : MeasureTheory.IntegrableOn g (Ioo c 1)) :
    (∫ x in Ioo (0:ℝ) 1, g x) = (∫ x in Ioc (0:ℝ) c, g x) + ∫ x in Ioo c 1, g x := by
  rw [Ioo_zero_one_split c h0 h1]
  refine MeasureTheory.setIntegral_union ?_ measurableSet_Ioo hga hgb
  rw [Set.disjoint_left]
  rintro x ⟨_, hx2⟩ ⟨hx3, _⟩
  exact absurd hx3 (not_lt.mpr hx2)

/-- The conditional coupling is measure preserving: mixing the two conditional
correction integrals with the Bernoulli weights reproduces the unconditional
relaxed integral, at every `log_alpha`. -/
lemma P_eq_N (f : ℝ → ℝ) (hfc : Continuous f) (T t : ℝ) :
    u_prime t * (∫ w in Ioo (0:ℝ) 1, f (sig_relax T t (z_tilde_cond t 0 w)))
      + (1 - u_prime t) * (∫ w in Ioo (0:ℝ) 1, f (sig_relax T t (z_tilde_cond t 1 w)))
    = ∫ u in Ioo (0:ℝ) 1, f (sig_relax T t (z_sample t u)) := by
  have hc0 := u_prime_pos t
  have hc1 := u_prime_lt_one t
  have hg : Continuous (fun x => f (sig_relax T t (z_sample t x))) :=
    hfc.comp (continuous_sig_z_u T t)
  have key0 : ∀ w, z_tilde_cond t 0 w = z_sample t (w * u_prime t) := by
    intro w
    unfold z_tilde_cond z_sample
    rw [v_cond_zero]
  have key1 : ∀ w, z_tilde_cond t 1 w = z_sample t (w * (1 - u_prime t) + u_prime t) := by
    intro w
    unfold z_tilde_cond z_sample
    rw [v_cond_one]
  have h0 : u_prime t * (∫ w in Ioo (0:ℝ) 1, f (sig_relax T t (z_tilde_cond t 0 w)))
      = ∫ x in Ioo (0:ℝ) (u_prime t), f (sig_relax T t (z_sample t x)) := by
    rw [show (fun w => f (sig_relax T t (z_tilde_cond t 0 w)))
        = fun w => f (sig_relax T t (z_sample t (w * u_prime t))) from
      funext fun w => by rw [key0]]
    exact subst_scale (fun x => f (sig_relax T t (z_sample t x))) (u_prime t) hc0
  have h1 : (1 - u_prime t) *
        (∫ w in Ioo (0:ℝ) 1, f (sig_relax T t (z_tilde_cond t 1 w)))
      = ∫ x in Ioo (u_prime t) 1, f (sig_relax T t (z_sample t x)) := by
    rw [show (fun w => f (sig_relax T t (z_tilde_cond t 1 w)))
        = fun w => f (sig_relax T t (z_sample t (w * (1 - u_prime t) + u_prime t))) from
      funext fun w => by rw [key1]]
    exact subst_affine (fun x => f (sig_relax T t (z_sample t x))) (u_prime t) hc1
  have hsplit := setIntegral_Ioo01_split (fun x => f (sig_relax T t (z_sample t x)))
    (u_prime t) hc0 hc1
    ((hg.integrableOn_Icc).mono_set Ioc_subset_Icc_self)
    ((hg.integrableOn_Icc).mono_set Ioo_subset_Icc_self)
  rw [h0, h1, hsplit, MeasureTheory.integral_Ioc_eq_integral_Ioo]

/-- Differentiating `P_eq_N` at `la`: the derivative of the unconditional
relaxed integral decomposes into the conditional correction terms.  This is
the cancellation that makes the `eta`-weighted control variate mean-zero. -/
lemma key_cancellation (f fd : ℝ → ℝ) (K T la : ℝ)
    (hf : ∀ x, HasDerivAt f (fd x) x) (hK : ∀ x, |fd x| ≤ K) (hT : 0 < T) :
    (∫ u in Ioo (0:ℝ) 1, f_z_path_dt fd T u la)
      = -(u_prime la * (1 - u_prime la)) *
          (∫ w in Ioo (0:ℝ) 1, f (sig_relax T la (z_tilde_cond la 0 w)))
        + u_prime la * (∫ w in Ioo (0:ℝ) 1, f_z_tilde_path_dt fd T 0 w la)
        + (u_prime la * (1 - u_prime la)) *
          (∫ w in Ioo (0:ℝ) 1, f (sig_relax T la (z_tilde_cond la 1 w)))
        + (1 - u_prime la) * (∫ w in Ioo (0:ℝ) 1, f_z_tilde_path_dt fd T 1 w la) := by
  have hfc : Continuous f := continuous_iff_continuousAt.mpr
    fun x => (hf x).differentiableAt.continuousAt
  have hA0 := (hasDerivAt_A f fd K T la 0 hf hK hT (Or.inl rfl)).2
  have hA1 := (hasDerivAt_A f fd K T la 1 hf hK hT (Or.inr rfl)).2
  have hN := (hasDerivAt_N f fd K T la hf hK hT).2
  have hu := hasDerivAt_u_prime la
  have hP : HasDerivAt (fun t =>
      u_prime t * (∫ w in Ioo (0:ℝ) 1, f (sig_relax T t (z_tilde_cond t 0 w)))
        + (1 - u_prime t) * (∫ w in Ioo (0:ℝ) 1, f (sig_relax T t (z_tilde_cond t 1 w))))
      ((-(u_prime la * (1 - u_prime la)) *
          (∫ w in Ioo (0:ℝ) 1, f (sig_relax T la (z_tilde_cond la 0 w)))
        + u_prime la * (∫ w in Ioo (0:ℝ) 1, f_z_tilde_path_dt fd T 0 w la))
      + ((0 - -(u_prime la * (1 - u_prime la))) *
          (∫ w in Ioo (0:ℝ) 1, f (sig_relax T la (z_tilde_cond la 1 w)))
        + (1 - u_prime la) * (∫ w in Ioo (0:ℝ) 1, f_z_tilde_path_dt fd T 1 w la))) la :=
    (hu.mul hA0).add (((hasDerivAt_const la (1:ℝ)).sub hu).mul hA1)
  have hPN : (fun t =>
      u_prime t * (∫ w in Ioo (0:ℝ) 1, f (sig_relax T t (z_tilde_cond t 0 w)))
        + (1 - u_prime t) * (∫ w in Ioo (0:ℝ) 1, f (sig_relax T t (z_tilde_cond t 1 w))))
      = fun t => ∫ u in Ioo (0:ℝ) 1, f (sig_relax T t (z_sample t u)) :=
    funext fun t => P_eq_N f hfc T t
  rw [hPN] at hP
  have hkey := hN.unique hP
  rw [hkey]
  ring

/-- The value of the inner (noise) integral of the estimator at a draw `u`
whose hard sample is `b`. -/
lemma inner_integral_eq (f fd : ℝ → ℝ) (K T eta la u b : ℝ)
    (hf : ∀ x, HasDerivAt f (fd x) x) (hK : ∀ x, |fd x| ≤ K) (hT : 0 < T)
    (hb : b = 0 ∨ b = 1) (hbu : b_sample la u = b) :
    (∫ w in Ioo (0:ℝ) 1, rebar_fun f T eta la u w)
      = f b * bernoulli_loglikelihood_derivitive b la
        + eta * f_z_path_dt fd T u la
        - eta * bernoulli_loglikelihood_derivitive b la *
            (∫ w in Ioo (0:ℝ) 1, f (sig_relax T la (z_tilde_cond la b w)))
        - eta * (∫ w in Ioo (0:ℝ) 1, f_z_tilde_path_dt fd T b w la) := by
  have hfc : Continuous f := continuous_iff_continuousAt.mpr
    fun x => (hf x).differentiableAt.continuousAt
  have hAint := (hasDerivAt_A f fd K T la b hf hK hT hb).1
  have hstep : (∫ w in Ioo (0:ℝ) 1, rebar_fun f T eta la u w)
      = ∫ w in Ioo (0:ℝ) 1,
          ((f b * bernoulli_loglikelihood_derivitive b la
              + eta * f_z_path_dt fd T u la)
            + ((-(eta * bernoulli_loglikelihood_derivitive b la)) *
                  f (sig_relax T la (z_tilde_cond la b w))
              + (-eta) * f_z_tilde_path_dt fd T b w la)) := by
    apply MeasureTheory.integral_congr_ae
    filter_upwards [ae_good_w la b hb] with w hw
    unfold rebar_fun term2_fun f_z_path f_z_tilde_path
    rw [hbu]
    have hd1 := hasDerivAt_f_z_path f fd hf T u la
    have hd2 := hasDerivAt_f_z_tilde_path f fd hf T b w la hb hw.1.1.le hw.1.2
      hw.2.1 hw.2.2
    have hder : deriv (fun t => f (sig_relax T t (z_sample t u))
          - f (sig_relax T t (z_tilde_cond t b w))) la
        = f_z_path_dt fd T u la - f_z_tilde_path_dt fd T b w la := (hd1.sub hd2).deriv
    rw [hder]
    ring
  have hconst : MeasureTheory.Integrable
      (fun _w : ℝ => f b * bernoulli_loglikelihood_derivitive b la
        + eta * f_z_path_dt fd T u la)
      (MeasureTheory.volume.restrict (Ioo (0:ℝ) 1)) := by
    rw [MeasureTheory.integrable_const_iff]
    right
    simp [Real.volume_Ioo]
  have hint_a : MeasureTheory.Integrable
      (fun w => (-(eta * bernoulli_loglikelihood_derivitive b la)) *
        f (sig_relax T la (z_tilde_cond la b w)))
      (MeasureTheory.volume.restrict (Ioo (0:ℝ) 1)) :=
    (((continuous_const.mul (hfc.comp
      (continuous_sig_z_tilde_w T la b))).integrableOn_Icc).mono_set
      Ioo_subset_Icc_self)
  have hint_b : MeasureTheory.Integrable
      (fun w => (-eta) * f_z_tilde_path_dt fd T b w la)
      (MeasureTheory.volume.restrict (Ioo (0:ℝ) 1)) := hAint.const_mul (-eta)
  have hint_ab : MeasureTheory.Integrable
      (fun w => (-(eta * bernoulli_loglikelihood_derivitive b la)) *
          f (sig_relax T la (z_tilde_cond la b w))
        + (-eta) * f_z_tilde_path_dt fd T b w la)
      (MeasureTheory.volume.restrict (Ioo (0:ℝ) 1)) := hint_a.add hint_b
  rw [hstep, MeasureTheory.integral_add hconst hint_ab,
    setIntegral_Ioo01_const, MeasureTheory.integral_add hint_a hint_b,
    MeasureTheory.integral_mul_left, MeasureTheory.integral_mul_left]
  ring

/-- C2 (amended): away from clipping saturation the estimator is exactly
unbiased for *every* finite control-variate weight `eta`: for every loss `f`
differentiable with derivative bounded by `K`, every temperature `T > 0`,
every `eta`, and every `|log_alpha| ≤ 18`, the expectation of `rebar` over the
two uniform draws equals the true gradient `∂/∂log_alpha E[loss(b)]`.  Outside
the band the `safe_log_prob` clipping saturates the sampler and the claimed
independence from the hyperparameter values fails
(`rebar_biased_at_saturation`). -/
theorem rebar_unbiased_nonsaturated (f fd : ℝ → ℝ) (K T eta la : ℝ)
    (hf : ∀ x, HasDerivAt f (fd x) x) (hK : ∀ x, |fd x| ≤ K)
    (hT : 0 < T) (hla : |la| ≤ 18) :
    rebar_expectation f T eta la = true_grad f la := by
  have hc0 : 0 < u_prime la := u_prime_pos la
  have hc1 : u_prime la < 1 := u_prime_lt_one la
  have hb0 : ∀ u ∈ Ioc (0:ℝ) (u_prime la), b_sample la u = 0 := by
    intro u hu
    unfold b_sample
    rw [if_neg]
    rw [z_sample_pos_iff la u hla hu.1 (lt_of_le_of_lt hu.2 hc1)]
    exact not_lt.mpr hu.2
  have hb1 : ∀ u ∈ Ioo (u_prime la) 1, b_sample la u = 1 := by
    intro u hu
    unfold b_sample
    rw [if_pos]
    rw [z_sample_pos_iff la u hla (lt_trans hc0 hu.1) hu.2]
    exact hu.1
  have hV0 : ∀ u ∈ Ioc (0:ℝ) (u_prime la),
      (∫ w in Ioo (0:ℝ) 1, rebar_fun f T eta la u w)
        = (f 0 * bernoulli_loglikelihood_derivitive 0 la
            - eta * bernoulli_loglikelihood_derivitive 0 la *
                (∫ w in Ioo (0:ℝ) 1, f (sig_relax T la (z_tilde_cond la 0 w)))
            - eta * (∫ w in Ioo (0:ℝ) 1, f_z_tilde_path_dt fd T 0 w la))
          + eta * f_z_path_dt fd T u la := by
    intro u hu
    rw [inner_integral_eq f fd K T eta la u 0 hf hK hT (Or.inl rfl) (hb0 u hu)]
    ring
  have hV1 : ∀ u ∈ Ioo (u_prime la) 1,
      (∫ w in Ioo (0:ℝ) 1, rebar_fun f T eta la u w)
        = (f 1 * bernoulli_loglikelihood_derivitive 1 la
            - eta * bernoulli_loglikelihood_derivitive 1 la *
                (∫ w in Ioo (0:ℝ) 1, f (sig_relax T la (z_tilde_cond la 1 w)))
            - eta * (∫ w in Ioo (0:ℝ) 1, f_z_tilde_path_dt fd T 1 w la))
          + eta * f_z_path_dt fd T u la := by
    intro u hu
    rw [inner_integral_eq f fd K T eta la u 1 hf hK hT (Or.inr rfl) (hb1 u hu)]
    ring
  have houter : (∫ u in Ioo (0:ℝ) 1, ∫ w in Ioo (0:ℝ) 1, rebar_fun f T eta la u w)
      = ∫ u in Ioo (0:ℝ) 1,
          ((if u ≤ u_prime la then
              f 0 * bernoulli_loglikelihood_derivitive 0 la
                - eta * bernoulli_loglikelihood_derivitive 0 la *
                    (∫ w in Ioo (0:ℝ) 1, f (sig_relax T la (z_tilde_cond la 0 w)))
                - eta * (∫ w in Ioo (0:ℝ) 1, f_z_tilde_path_dt fd T 0 w la)
            else
              f 1 * bernoulli_loglikelihood_derivitive 1 la
                - eta * bernoulli_loglikelihood_derivitive 1 la *
                    (∫ w in Ioo (0:ℝ) 1, f (sig_relax T la (z_tilde_cond la 1 w)))
                - eta * (∫ w in Ioo (0:ℝ) 1, f_z_tilde_path_dt fd T 1 w la))
            + eta * f_z_path_dt fd T u la) := by
    refine MeasureTheory.setIntegral_congr_fun measurableSet_Ioo fun u hu => ?_
    rcases le_or_lt u (u_prime la) with h | h
    · rw [hV0 u ⟨hu.1, h⟩, if_pos h]
    · rw [hV1 u ⟨h, hu.2⟩, if_neg (not_le.mpr h)]
  have hQ0 : MeasureTheory.IntegrableOn
      (fun u => if u ≤ u_prime la then
          f 0 * bernoulli_loglikelihood_derivitive 0 la
            - eta * bernoulli_loglikelihood_derivitive 0 la *
                (∫ w in Ioo (0:ℝ) 1, f (sig_relax T la (z_tilde_cond la 0 w)))
            - eta * (∫ w in Ioo (0:ℝ) 1, f_z_tilde_path_dt fd T 0 w la)
        else
          f 1 * bernoulli_loglikelihood_derivitive 1 la
            - eta * bernoulli_loglikelihood_derivitive 1 la *
                (∫ w in Ioo (0:ℝ) 1, f (sig_relax T la (z_tilde_cond la 1 w)))
            - eta * (∫ w in Ioo (0:ℝ) 1, f_z_tilde_path_dt fd T 1 w la))
      (Ioc (0:ℝ) (u_prime la)) := by
    refine (MeasureTheory.integrableOn_const.mpr ?_).congr_fun
      (fun u hu => (if_pos hu.2).symm) measurableSet_Ioc
    right
    rw [Real.volume_Ioc]
    exact ENNReal.ofReal_lt_top
  have hQ1 : MeasureTheory.IntegrableOn
      (fun u => if u ≤ u_prime la then
          f 0 * bernoulli_loglikelihood_derivitive 0 la
            - eta * bernoulli_loglikelihood_derivitive 0 la *
                (∫ w in Ioo (0:ℝ) 1, f (sig_relax T la (z_tilde_cond la 0 w)))
            - eta * (∫ w in Ioo (0:ℝ) 1, f_z_tilde_path_dt fd T 0 w la)
        else
          f 1 * bernoulli_loglikelihood_derivitive 1 la
            - eta * bernoulli_loglikelihood_derivitive 1 la *
                (∫ w in Ioo (0:ℝ) 1, f (sig_relax T la (z_tilde_cond la 1 w)))
            - eta * (∫ w in Ioo (0:ℝ) 1, f_z_tilde_path_dt fd T 1 w la))
      (Ioo (u_prime la) 1) := by
    refine (MeasureTheory.integrableOn_const.mpr ?_).congr_fun
      (fun u hu => (if_neg (not_le.mpr hu.1)).symm) measurableSet_Ioo
    right
    rw [Real.volume_Ioo]
    exact ENNReal.ofReal_lt_top
  have hQint : MeasureTheory.IntegrableOn
      (fun u => if u ≤ u_prime la then
          f 0 * bernoulli_loglikelihood_derivitive 0 la
            - eta * bernoulli_loglikelihood_derivitive 0 la *
                (∫ w in Ioo (0:ℝ) 1, f (sig_relax T la (z_tilde_cond la 0 w)))
            - eta * (∫ w in Ioo (0:ℝ) 1, f_z_tilde_path_dt fd T 0 w la)
        else
          f 1 * bernoulli_loglikelihood_derivitive 1 la
            - eta * bernoulli_loglikelihood_derivitive 1 la *
                (∫ w in Ioo (0:ℝ) 1, f (sig_relax T la (z_tilde_cond la 1 w)))
            - eta * (∫ w in Ioo (0:ℝ) 1, f_z_tilde_path_dt fd T 1 w la))
      (Ioo (0:ℝ) 1) := by
    have h := hQ0.union hQ1
    rwa [← Ioo_zero_one_split (u_prime la) hc0 hc1] at h
  have hNint := (hasDerivAt_N f fd K T la hf hK hT).1
  have hNint2 : MeasureTheory.Integrable (fun u => eta * f_z_path_dt fd T u la)
      (MeasureTheory.volume.restrict (Ioo (0:ℝ) 1)) := hNint.const_mul eta
  have hIte : (∫ u in Ioo (0:ℝ) 1, (if u ≤ u_prime la then
          f 0 * bernoulli_loglikelihood_derivitive 0 la
            - eta * bernoulli_loglikelihood_derivitive 0 la *
                (∫ w in Ioo (0:ℝ) 1, f (sig_relax T la (z_tilde_cond la 0 w)))
            - eta * (∫ w in Ioo (0:ℝ) 1, f_z_tilde_path_dt fd T 0 w la)
        else
          f 1 * bernoulli_loglikelihood_derivitive 1 la
            - eta * bernoulli_loglikelihood_derivitive 1 la *
                (∫ w in Ioo (0:ℝ) 1, f (sig_relax T la (z_tilde_cond la 1 w)))
            - eta * (∫ w in Ioo (0:ℝ) 1, f_z_tilde_path_dt fd T 1 w la)))
      = u_prime la *
          (f 0 * bernoulli_loglikelihood_derivitive 0 la
            - eta * bernoulli_loglikelihood_derivitive 0 la *
                (∫ w in Ioo (0:ℝ) 1, f (sig_relax T la (z_tilde_cond la 0 w)))
            - eta * (∫ w in Ioo (0:ℝ) 1, f_z_tilde_path_dt fd T 0 w la))
        + (1 - u_prime la) *
          (f 1 * bernoulli_loglikelihood_derivitive 1 la
            - eta * bernoulli_loglikelihood_derivitive 1 la *
                (∫ w in Ioo (0:ℝ) 1, f (sig_relax T la (z_tilde_cond la 1 w)))
            - eta * (∫ w in Ioo (0:ℝ) 1, f_z_tilde_path_dt fd T 1 w la)) := by
    rw [setIntegral_Ioo01_split _ (u_prime la) hc0 hc1 hQ0 hQ1]
    rw [MeasureTheory.setIntegral_congr_fun measurableSet_Ioc
        (fun u hu => if_pos hu.2),
      MeasureTheory.setIntegral_congr_fun measurableSet_Ioo
        (fun u hu => if_neg (not_le.mpr hu.1)),
      MeasureTheory.setIntegral_const, MeasureTheory.setIntegral_const,
      Real.volume_Ioc, Real.volume_Ioo, smul_eq_mul, smul_eq_mul,
      ENNReal.toReal_ofReal (by linarith : (0:ℝ) ≤ u_prime la - 0),
      ENNReal.toReal_ofReal (by linarith : (0:ℝ) ≤ 1 - u_prime la)]
    ring_nf
  have hfinal : rebar_expectation f T eta la
      = (u_prime la *
            (f 0 * bernoulli_loglikelihood_derivitive 0 la
              - eta * bernoulli_loglikelihood_derivitive 0 la *
                  (∫ w in Ioo (0:ℝ) 1, f (sig_relax T la (z_tilde_cond la 0 w)))
              - eta * (∫ w in Ioo (0:ℝ) 1, f_z_tilde_path_dt fd T 0 w la))
          + (1 - u_prime la) *
            (f 1 * bernoulli_loglikelihood_derivitive 1 la
              - eta * bernoulli_loglikelihood_derivitive 1 la *
                  (∫ w in Ioo (0:ℝ) 1, f (sig_relax T la (z_tilde_cond la 1 w)))
              - eta * (∫ w in Ioo (0:ℝ) 1, f_z_tilde_path_dt fd T 1 w la)))
        + eta * (∫ u in Ioo (0:ℝ) 1, f_z_path_dt fd T u la) := by
    show (∫ u in Ioo (0:ℝ) 1, ∫ w in Ioo (0:ℝ) 1, rebar_fun f T eta la u w) = _
    rw [houter, MeasureTheory.integral_add hQint hNint2,
      MeasureTheory.integral_mul_left, hIte]
  rw [hfinal, key_cancellation f fd K T la hf hK hT, true_grad_eq,
    bll_derivitive_zero, bll_derivitive_one]
  have hsig : sigmoid la = 1 - u_prime la := by
    unfold u_prime
    rw [sigmoid_neg_eq]
    ring
  rw [hsig]
  ring

/-- Instance of the amended C2 with a nonzero control weight: `f = id`
(derivative bound `1`), `eta = 1`, `temperature = 1`, `log_alpha = 0`. -/
theorem rebar_unbiased_nonsaturated_witness :
    (0:ℝ) < 1 ∧ |(0:ℝ)| ≤ 18 ∧ rebar_expectation id 1 1 0 = true_grad id 0 :=
  ⟨by norm_num, by norm_num,
    rebar_unbiased_nonsaturated id (fun _ => 1) 1 1 1 0
      (fun x => hasDerivAt_id x) (fun x => by norm_num) (by norm_num) (by norm_num)⟩
